import Mathlib

/-!
Verification of the core data structures of the bfffs copy-on-write block
storage engine.

The development shallowly embeds, in Lean, the parts of the source that the
claims are about:

* the free-space map and LBA allocator (`src/common/cluster.rs`:
  `FreeSpaceMap`, `Cluster::write`);
* the direct data management layer read path (`src/common/ddml.rs`:
  `DRP::asize`, `DDML::read`, `DDML::get`);
* the indirect data management layer (`bfffs/src/common/idml/idml.rs`:
  `IDML::put/get/delete/pop/clean_zone/move_record/check_ridt`);
* the copy-on-write B+-tree insert and remove paths
  (`src/common/tree.rs`: `Tree::insert_locked`, `Tree::remove_locked`).

Rust `BTreeMap`s are embedded as association lists whose `insert` first
erases the key (so keys stay unique); `BTreeSet`s and the ordered iteration
of `BTreeMap` are embedded as sorted lists.  Fallible code (assertion
failures, `expect`, error returns) is embedded with `Option`/`Except`.
-/

namespace BFFFS

/-! ## Association-list embedding of `BTreeMap` -/

/-- Lookup in an association list; embeds `BTreeMap::get`. -/
def bmGet {α β : Type} [DecidableEq α] : List (α × β) → α → Option β
  | [], _ => none
  | (k', v) :: t, k => if k' = k then some v else bmGet t k

/-- Remove every binding of a key; used to keep keys unique on insert. -/
def bmErase {α β : Type} [DecidableEq α] (l : List (α × β)) (k : α) :
    List (α × β) :=
  l.filter (fun p => p.1 ≠ k)

/-- Insert (replacing any previous binding); embeds `BTreeMap::insert`
(the previous value is recovered with `bmGet`). -/
def bmInsert {α β : Type} [DecidableEq α] (l : List (α × β)) (k : α) (v : β) :
    List (α × β) :=
  (k, v) :: bmErase l k

/-- Remove a key; embeds `BTreeMap::remove` (the removed value is recovered
with `bmGet`). -/
def bmRemove {α β : Type} [DecidableEq α] (l : List (α × β)) (k : α) :
    List (α × β) :=
  bmErase l k

/-- Keys are pairwise distinct. -/
def KeysNodup {α β : Type} (l : List (α × β)) : Prop :=
  l.Pairwise (fun p q => p.1 ≠ q.1)

section MapLemmas

variable {α β : Type} [DecidableEq α]

theorem bmGet_eq_none_of_not_mem {l : List (α × β)} {k : α}
    (h : ∀ p ∈ l, p.1 ≠ k) : bmGet l k = none := by
  induction l with
  | nil => rfl
  | cons p t ih =>
      simp only [bmGet]
      rw [if_neg (h p (List.mem_cons_self p t))]
      exact ih (fun q hq => h q (List.mem_cons_of_mem p hq))

theorem mem_of_bmGet_eq_some {l : List (α × β)} {k : α} {v : β}
    (h : bmGet l k = some v) : (k, v) ∈ l := by
  induction l with
  | nil => simp [bmGet] at h
  | cons p t ih =>
      by_cases hk : p.1 = k
      · simp only [bmGet, if_pos hk] at h
        obtain ⟨a, b⟩ := p
        simp only [Option.some.injEq] at h
        subst h
        subst hk
        exact List.mem_cons_self _ _
      · simp only [bmGet, if_neg hk] at h
        exact List.mem_cons_of_mem p (ih h)

theorem bmGet_eq_some_of_mem {l : List (α × β)} (hnd : KeysNodup l)
    {k : α} {v : β} (h : (k, v) ∈ l) : bmGet l k = some v := by
  induction l with
  | nil => simp at h
  | cons p t ih =>
      rcases List.mem_cons.mp h with h1 | h2
      · subst h1; simp [bmGet]
      · have hne : p.1 ≠ k := by
          have := (List.pairwise_cons.mp hnd).1 _ h2
          simpa using this
        simp only [bmGet, if_neg hne]
        exact ih (List.pairwise_cons.mp hnd).2 h2

theorem bmGet_erase_self {l : List (α × β)} {k : α} :
    bmGet (bmErase l k) k = none := by
  apply bmGet_eq_none_of_not_mem
  intro p hp
  have := List.of_mem_filter hp
  simpa using this

theorem bmGet_erase_ne {l : List (α × β)} {k k' : α} (h : k ≠ k') :
    bmGet (bmErase l k') k = bmGet l k := by
  induction l with
  | nil => rfl
  | cons p t ih =>
      by_cases hp : p.1 = k'
      · have : bmErase (p :: t) k' = bmErase t k' := by
          simp [bmErase, List.filter, hp]
        rw [this, ih]
        have hpk : p.1 ≠ k := by rw [hp]; exact fun hh => h hh.symm
        simp [bmGet, if_neg hpk]
      · have : bmErase (p :: t) k' = p :: bmErase t k' := by
          simp [bmErase, List.filter, hp]
        rw [this]
        by_cases hk : p.1 = k
        · simp [bmGet, if_pos hk]
        · simp only [bmGet, if_neg hk]
          exact ih

theorem bmGet_insert_self {l : List (α × β)} {k : α} {v : β} :
    bmGet (bmInsert l k v) k = some v := by
  simp [bmInsert, bmGet]

theorem bmGet_insert_ne {l : List (α × β)} {k k' : α} {v : β} (h : k ≠ k') :
    bmGet (bmInsert l k' v) k = bmGet l k := by
  have hne : ¬ (k' = k) := fun hh => h hh.symm
  simp only [bmInsert, bmGet, if_neg hne]
  exact bmGet_erase_ne h

theorem keysNodup_erase {l : List (α × β)} (h : KeysNodup l) (k : α) :
    KeysNodup (bmErase l k) :=
  List.Pairwise.filter _ h

theorem keysNodup_insert {l : List (α × β)} (h : KeysNodup l) (k : α)
    (v : β) : KeysNodup (bmInsert l k v) := by
  refine List.pairwise_cons.mpr ⟨?_, keysNodup_erase h k⟩
  intro p hp
  have := List.of_mem_filter hp
  simp only [decide_eq_true_eq] at this
  exact fun hk => this hk.symm

omit [DecidableEq α] in
theorem keysNodup_nil : KeysNodup ([] : List (α × β)) := List.Pairwise.nil

theorem mem_erase_of_mem_of_ne {l : List (α × β)} {p : α × β} {k : α}
    (hm : p ∈ l) (hk : p.1 ≠ k) : p ∈ bmErase l k :=
  List.mem_filter.mpr ⟨hm, by simpa using hk⟩

theorem mem_of_mem_erase {l : List (α × β)} {p : α × β} {k : α}
    (hm : p ∈ bmErase l k) : p ∈ l ∧ p.1 ≠ k := by
  have := List.mem_filter.mp hm
  exact ⟨this.1, by simpa using this.2⟩

theorem bmGet_ne_none_of_mem {l : List (α × β)} {k : α} {v : β}
    (h : (k, v) ∈ l) : bmGet l k ≠ none := by
  induction l with
  | nil => simp at h
  | cons p t ih =>
      by_cases hk : p.1 = k
      · simp [bmGet, hk]
      · rcases List.mem_cons.mp h with h1 | h2
        · exact absurd (congrArg Prod.fst h1.symm) hk
        · simp only [bmGet, if_neg hk]
          exact ih h2

end MapLemmas

/-! ## Data model: addresses and record pointers

From `src/common/dva.rs` / `src/common/ddml.rs`: a `PBA` is a
(cluster, lba) pair, a `DRP` is the persistable record pointer
`{pba, compression, lsize, csize, checksum}`, and a `RidtEntry` is
`{drp, refcount}`. -/

/-- Block size in bytes, `BYTES_PER_LBA` from `src/common/mod.rs`. -/
def BYTES_PER_LBA : Nat := 4096

/-- Physical block address: a (cluster, lba) pair. -/
structure PBA where
  cluster : Nat
  lba : Nat
deriving DecidableEq, Repr

/-- Direct record pointer.  `compressed` embeds the `Compression` field as
the predicate `DRP::is_compressed` that the IDML consults. -/
structure DRP where
  pba : PBA
  compressed : Bool
  lsize : Nat
  csize : Nat
  checksum : Nat
deriving DecidableEq, Repr

/-- Storage space allocated for a record, `DRP::asize`:
`div_roundup(csize, BYTES_PER_LBA)`. -/
def DRP.asize (drp : DRP) : Nat :=
  (drp.csize + BYTES_PER_LBA - 1) / BYTES_PER_LBA

/-- Entry of the record indirection table, `RidtEntry {drp, refcount}`. -/
structure RidtEntry where
  drp : DRP
  refcount : Nat
deriving DecidableEq, Repr

/-- Record values handled by the IDML (byte buffers). -/
abbrev Val := List Nat

/-! ## The IDML state

The IDML owns the record indirection table `ridt : RID → RidtEntry`,
the reverse allocation table `alloct : PBA → RID`, the `next_rid`
counter, a cache keyed by RID, and (through the DDML and pool) the
record data addressed by PBA. -/

structure IdmlState where
  ridt : List (Nat × RidtEntry)
  alloct : List (PBA × Nat)
  next_rid : Nat
  cache : List (Nat × Val)
  disk : List (PBA × Val)
deriving DecidableEq, Repr

/-- The freshly created IDML of `IDML::create`: empty trees, `next_rid = 0`. -/
def initialIdml : IdmlState :=
  { ridt := [], alloct := [], next_rid := 0, cache := [], disk := [] }

/-- `IDML::put` (idml.rs:514-545): assign `rid = next_rid++`, write the value
through `ddml.put_direct` obtaining `drp`, insert `(drp.pba → rid)` into the
AllocT and `(rid → {drp, refcount: 1})` into the RIDT, then cache the value.
Both inserts assert that no previous entry existed (`"RID was not unique"`,
`"DDML allocator leak detected!"`); an assertion failure is embedded as
`none`.  The `drp` argument stands for the address chosen by the DDML's
allocator for this write. -/
def idmlPut (s : IdmlState) (v : Val) (drp : DRP) :
    Option (Nat × IdmlState) :=
  let rid := s.next_rid
  match bmGet s.ridt rid, bmGet s.alloct drp.pba with
  | none, none =>
      some (rid,
        { ridt := bmInsert s.ridt rid ⟨drp, 1⟩,
          alloct := bmInsert s.alloct drp.pba rid,
          next_rid := rid + 1,
          cache := bmInsert s.cache rid v,
          disk := bmInsert s.disk drp.pba v })
  | _, _ => none

/-- `IDML::get` (idml.rs:437-458): return the cached value if resident;
otherwise look the RID up in the RIDT (absent → `ENOENT`), read the record
through `ddml.get_direct`, and insert it into the cache. -/
def idmlGet (s : IdmlState) (rid : Nat) : Option (Val × IdmlState) :=
  match bmGet s.cache rid with
  | some v => some (v, s)
  | none =>
      match bmGet s.ridt rid with
      | none => none
      | some entry =>
          match bmGet s.disk entry.drp.pba with
          | none => none
          | some v => some (v, { s with cache := bmInsert s.cache rid v })

/-- `IDML::delete` (idml.rs:402-431): look the RID up (absent → `ENOENT`)
and decrement the refcount.  If it reaches 0, remove the cache entry, free
the record (`ddml.delete_direct`), remove the AllocT entry — asserting that
one existed (`assert!(old_rid.is_some())`) — and remove the RIDT entry.
Otherwise re-insert the RIDT entry with the decremented refcount. -/
def idmlDelete (s : IdmlState) (rid : Nat) : Option IdmlState :=
  match bmGet s.ridt rid with
  | none => none
  | some entry =>
      let rc := entry.refcount - 1
      if rc = 0 then
        match bmGet s.alloct entry.drp.pba with
        | none => none
        | some _ =>
            some { ridt := bmRemove s.ridt rid,
                   alloct := bmRemove s.alloct entry.drp.pba,
                   next_rid := s.next_rid,
                   cache := bmRemove s.cache rid,
                   disk := bmRemove s.disk entry.drp.pba }
      else
        some { s with ridt := bmInsert s.ridt rid ⟨entry.drp, rc⟩ }

/-- `IDML::pop` (idml.rs:460-512): the same RIDT/AllocT/cache updates as
`delete`, but the record's value is also returned (from the cache, else
from the DDML). -/
def idmlPop (s : IdmlState) (rid : Nat) : Option (Val × IdmlState) :=
  match bmGet s.ridt rid with
  | none => none
  | some entry =>
      let rc := entry.refcount - 1
      if rc = 0 then
        match bmGet s.alloct entry.drp.pba with
        | none => none
        | some _ =>
            let v? := match bmGet s.cache rid with
              | some v => some v
              | none => bmGet s.disk entry.drp.pba
            match v? with
            | none => none
            | some v =>
                some (v,
                  { ridt := bmRemove s.ridt rid,
                    alloct := bmRemove s.alloct entry.drp.pba,
                    next_rid := s.next_rid,
                    cache := bmRemove s.cache rid,
                    disk := bmRemove s.disk entry.drp.pba })
      else
        let v? := match bmGet s.cache rid with
          | some v => some v
          | none => bmGet s.disk entry.drp.pba
        match v? with
        | none => none
        | some v =>
            some (v, { s with ridt := bmInsert s.ridt rid ⟨entry.drp, rc⟩ })

/-! ## Zone cleaning -/

/-- The PBA range of a zone being cleaned: same cluster, LBAs in
`[startLba, endLba)` — `zone.pba .. PBA::new(zone.pba.cluster,
zone.pba.lba + zone.total_blocks)` in `IDML::clean_zone`. -/
def inZone (cluster startLba endLba : Nat) (p : PBA) : Bool :=
  p.cluster = cluster && startLba ≤ p.lba && p.lba < endLba

/-- `IDML::move_record` (idml.rs:256-331): read the RIDT entry for `rid`
(`expect` — absence is a panic), rewrite the record through
`ddml.put_direct` at the allocator-chosen address `ndrp`, re-insert the
RIDT entry with the new DRP and insert `(ndrp.pba → rid)` into the AllocT.
Two gates make the embedding's `ndrp` behave like the DDML allocator during
`clean_zone`: the new PBA is outside the zone being cleaned (the
`debug_assert` in `IDML::clean_zone`, guaranteed because the cleaned zone is
closed and the allocator only writes to open or empty zones), and the new
PBA is not currently allocated (`Cluster` never re-allocates a live LBA
before the zone is erased). -/
def moveRecord (cluster startLba endLba : Nat) (s : IdmlState)
    (rid : Nat) (ndrp : DRP) : Option IdmlState :=
  match bmGet s.ridt rid with
  | none => none
  | some entry =>
      if inZone cluster startLba endLba ndrp.pba then none
      else if (bmGet s.alloct ndrp.pba).isSome then none
      else
        match bmGet s.disk entry.drp.pba with
        | none => none
        | some v =>
            some { ridt := bmInsert s.ridt rid ⟨ndrp, entry.refcount⟩,
                   alloct := bmInsert s.alloct ndrp.pba rid,
                   next_rid := s.next_rid,
                   cache := s.cache,
                   disk := bmInsert (bmRemove s.disk entry.drp.pba)
                             ndrp.pba v }

/-- Move every record of the zone in turn (the `for_each` over
`list_indirect_records` in `IDML::clean_zone`). -/
def moveAll (cluster startLba endLba : Nat) :
    IdmlState → List (Nat × DRP) → Option IdmlState
  | s, [] => some s
  | s, (rid, ndrp) :: rest =>
      match moveRecord cluster startLba endLba s rid ndrp with
      | none => none
      | some s' => moveAll cluster startLba endLba s' rest

/-- `IDML::clean_zone` (idml.rs:144-188): move every record whose AllocT
entry lies in the zone's PBA range (in the order produced by
`alloct.range`), then range-delete that PBA range from the AllocT.  The
subsequent `ridt.clean_zone`/`alloct.clean_zone` calls relocate tree nodes
without changing either table's contents, so they are identity on this
state.  `newDrps` lists the allocator-chosen destination of each moved
record. -/
def idmlCleanZone (s : IdmlState) (cluster startLba endLba : Nat)
    (newDrps : List DRP) : Option IdmlState :=
  let rids := (s.alloct.filter
      (fun p => inZone cluster startLba endLba p.1)).map (·.2)
  if rids.length = newDrps.length then
    match moveAll cluster startLba endLba s (rids.zip newDrps) with
    | none => none
    | some s' =>
        some { s' with
          alloct := s'.alloct.filter
            (fun p => !(inZone cluster startLba endLba p.1)) }
  else
    none

/-! ## Operation sequences -/

/-- A single IDML operation together with the addresses chosen by the
DDML's allocator for any writes it performs. -/
inductive IdmlOp where
  | put (v : Val) (drp : DRP)
  | get (rid : Nat)
  | delete (rid : Nat)
  | pop (rid : Nat)
  | cleanZone (cluster startLba endLba : Nat) (newDrps : List DRP)

/-- Apply one operation; `none` when the operation fails (an error return
or a failed assertion). -/
def applyOp (s : IdmlState) : IdmlOp → Option IdmlState
  | .put v drp => (idmlPut s v drp).map (·.2)
  | .get rid => (idmlGet s rid).map (·.2)
  | .delete rid => idmlDelete s rid
  | .pop rid => (idmlPop s rid).map (·.2)
  | .cleanZone c a b drps => idmlCleanZone s c a b drps

/-- Run a sequence of operations; `none` as soon as one fails. -/
def runOps : IdmlState → List IdmlOp → Option IdmlState
  | s, [] => some s
  | s, op :: rest =>
      match applyOp s op with
      | none => none
      | some s' => runOps s' rest

/-! ## The `check_ridt` consistency check

`IDML::check_ridt` (idml.rs:73-127) folds over the AllocT checking that
each `(pba → rid)` has a RIDT entry whose `drp.pba` equals `pba`, and over
the RIDT checking that each entry's `drp.pba` has some AllocT entry. -/

/-- Executable embedding of `IDML::check_ridt`. -/
def check_ridt (s : IdmlState) : Bool :=
  (s.alloct.all fun p =>
    match bmGet s.ridt p.2 with
    | some entry => entry.drp.pba = p.1
    | none => false) &&
  (s.ridt.all fun q => (bmGet s.alloct q.2.drp.pba).isSome)

/-! ## The RIDT/AllocT bijection invariant -/

/-- RIDT and AllocT are exact inverses over live PBAs. -/
structure Inv (s : IdmlState) : Prop where
  nd_ridt : KeysNodup s.ridt
  nd_alloct : KeysNodup s.alloct
  fwd : ∀ rid e, bmGet s.ridt rid = some e →
    bmGet s.alloct e.drp.pba = some rid
  bwd : ∀ pba rid, bmGet s.alloct pba = some rid →
    ∃ e, bmGet s.ridt rid = some e ∧ e.drp.pba = pba

theorem inv_initial : Inv initialIdml :=
  ⟨keysNodup_nil, keysNodup_nil,
   fun _ _ h => by simp [initialIdml, bmGet] at h,
   fun _ _ h => by simp [initialIdml, bmGet] at h⟩

theorem inv_put {s : IdmlState} (hs : Inv s) {v : Val} {drp : DRP}
    {rid : Nat} {s' : IdmlState} (h : idmlPut s v drp = some (rid, s')) :
    Inv s' := by
  cases hr : bmGet s.ridt s.next_rid with
  | some e => simp [idmlPut, hr] at h
  | none =>
  cases ha : bmGet s.alloct drp.pba with
  | some r => simp [idmlPut, hr, ha] at h
  | none =>
  simp only [idmlPut, hr, ha, Option.some.injEq, Prod.mk.injEq] at h
  obtain ⟨hrid, hs'⟩ := h
  subst hs'
  refine ⟨keysNodup_insert hs.nd_ridt _ _, keysNodup_insert hs.nd_alloct _ _,
    ?_, ?_⟩
  · intro rid' e' hg
    by_cases hcase : rid' = s.next_rid
    · subst hcase
      rw [bmGet_insert_self] at hg
      cases hg
      exact bmGet_insert_self
    · rw [bmGet_insert_ne hcase] at hg
      have hold := hs.fwd _ _ hg
      have hne : e'.drp.pba ≠ drp.pba := by
        intro hh
        rw [hh, ha] at hold
        cases hold
      rw [bmGet_insert_ne hne]
      exact hold
  · intro pba r hg
    by_cases hcase : pba = drp.pba
    · subst hcase
      rw [bmGet_insert_self] at hg
      cases hg
      exact ⟨⟨drp, 1⟩, bmGet_insert_self, rfl⟩
    · rw [bmGet_insert_ne hcase] at hg
      obtain ⟨e, he, hpe⟩ := hs.bwd _ _ hg
      have hner : r ≠ s.next_rid := by
        intro hh
        rw [hh, hr] at he
        cases he
      exact ⟨e, by rw [bmGet_insert_ne hner]; exact he, hpe⟩

theorem inv_delete_core {s : IdmlState} (hs : Inv s) {rid : Nat}
    {entry : RidtEntry} (hg : bmGet s.ridt rid = some entry) :
    Inv { ridt := bmRemove s.ridt rid,
          alloct := bmRemove s.alloct entry.drp.pba,
          next_rid := s.next_rid,
          cache := bmRemove s.cache rid,
          disk := bmRemove s.disk entry.drp.pba } := by
  have halc : bmGet s.alloct entry.drp.pba = some rid := hs.fwd _ _ hg
  refine ⟨keysNodup_erase hs.nd_ridt _, keysNodup_erase hs.nd_alloct _,
    ?_, ?_⟩
  · intro rid' e' hg'
    simp only [bmRemove] at hg' ⊢
    by_cases hcase : rid' = rid
    · subst hcase; rw [bmGet_erase_self] at hg'; cases hg'
    · rw [bmGet_erase_ne hcase] at hg'
      have hold := hs.fwd _ _ hg'
      have hne : e'.drp.pba ≠ entry.drp.pba := by
        intro hh
        rw [hh, halc] at hold
        exact hcase (Option.some.inj hold).symm
      rw [bmGet_erase_ne hne]
      exact hold
  · intro pba r hg'
    simp only [bmRemove] at hg' ⊢
    by_cases hcase : pba = entry.drp.pba
    · subst hcase; rw [bmGet_erase_self] at hg'; cases hg'
    · rw [bmGet_erase_ne hcase] at hg'
      obtain ⟨e, he, hpe⟩ := hs.bwd _ _ hg'
      have hner : r ≠ rid := by
        intro hh
        rw [hh, hg] at he
        have hee : entry = e := Option.some.inj he
        exact hcase (hee ▸ hpe).symm
      exact ⟨e, by rw [bmGet_erase_ne hner]; exact he, hpe⟩

theorem inv_reinsert {s : IdmlState} (hs : Inv s) {rid : Nat}
    {entry : RidtEntry} (hg : bmGet s.ridt rid = some entry) (rc : Nat)
    {c : List (Nat × Val)} :
    Inv { s with ridt := bmInsert s.ridt rid ⟨entry.drp, rc⟩, cache := c } := by
  refine ⟨keysNodup_insert hs.nd_ridt _ _, hs.nd_alloct, ?_, ?_⟩
  · intro rid' e' hg'
    simp only at hg' ⊢
    by_cases hcase : rid' = rid
    · subst hcase
      rw [bmGet_insert_self] at hg'
      cases hg'
      exact hs.fwd rid' entry hg
    · rw [bmGet_insert_ne hcase] at hg'
      exact hs.fwd _ _ hg'
  · intro pba r hg'
    simp only at hg' ⊢
    obtain ⟨e, he, hpe⟩ := hs.bwd _ _ hg'
    by_cases hcase : r = rid
    · subst hcase
      have hee : e = entry := by rw [he] at hg; exact Option.some.inj hg
      refine ⟨⟨entry.drp, rc⟩, bmGet_insert_self, ?_⟩
      simpa using hee ▸ hpe
    · exact ⟨e, by rw [bmGet_insert_ne hcase]; exact he, hpe⟩

theorem inv_delete {s : IdmlState} (hs : Inv s) {rid : Nat}
    {s' : IdmlState} (h : idmlDelete s rid = some s') : Inv s' := by
  cases hg : bmGet s.ridt rid with
  | none => simp [idmlDelete, hg] at h
  | some entry =>
  by_cases hrc : entry.refcount - 1 = 0
  · cases ha : bmGet s.alloct entry.drp.pba with
    | none => simp [idmlDelete, hg, hrc, ha] at h
    | some r =>
        simp only [idmlDelete, hg, hrc, ha, if_true, Option.some.injEq] at h
        subst h
        exact inv_delete_core hs hg
  · simp only [idmlDelete, hg, if_neg hrc, Option.some.injEq] at h
    subst h
    exact inv_reinsert hs hg _

theorem inv_pop {s : IdmlState} (hs : Inv s) {rid : Nat} {v : Val}
    {s' : IdmlState} (h : idmlPop s rid = some (v, s')) : Inv s' := by
  cases hg : bmGet s.ridt rid with
  | none => simp [idmlPop, hg] at h
  | some entry =>
  by_cases hrc : entry.refcount - 1 = 0
  · cases ha : bmGet s.alloct entry.drp.pba with
    | none => simp [idmlPop, hg, hrc, ha] at h
    | some r =>
        simp only [idmlPop, hg, hrc, ha, if_true] at h
        cases hv : (match bmGet s.cache rid with
          | some v => some v
          | none => bmGet s.disk entry.drp.pba : Option Val) with
        | none => rw [hv] at h; cases h
        | some v0 =>
            rw [hv] at h
            simp only [Option.some.injEq, Prod.mk.injEq] at h
            obtain ⟨-, hs'⟩ := h
            subst hs'
            exact inv_delete_core hs hg
  · simp only [idmlPop, hg, if_neg hrc] at h
    cases hv : (match bmGet s.cache rid with
      | some v => some v
      | none => bmGet s.disk entry.drp.pba : Option Val) with
    | none => rw [hv] at h; cases h
    | some v0 =>
        rw [hv] at h
        simp only [Option.some.injEq, Prod.mk.injEq] at h
        obtain ⟨-, hs'⟩ := h
        subst hs'
        exact inv_reinsert hs hg _

theorem inv_get {s : IdmlState} (hs : Inv s) {rid : Nat} {v : Val}
    {s' : IdmlState} (h : idmlGet s rid = some (v, s')) : Inv s' := by
  have hsame : s'.ridt = s.ridt ∧ s'.alloct = s.alloct := by
    cases hc : bmGet s.cache rid with
    | some v0 =>
        simp only [idmlGet, hc, Option.some.injEq, Prod.mk.injEq] at h
        rw [← h.2]
        exact ⟨rfl, rfl⟩
    | none =>
        cases hg : bmGet s.ridt rid with
        | none => simp [idmlGet, hc, hg] at h
        | some entry =>
            cases hd : bmGet s.disk entry.drp.pba with
            | none => simp [idmlGet, hc, hg, hd] at h
            | some v0 =>
                simp only [idmlGet, hc, hg, hd, Option.some.injEq,
                  Prod.mk.injEq] at h
                rw [← h.2]
                exact ⟨rfl, rfl⟩
  exact ⟨hsame.1 ▸ hs.nd_ridt, hsame.2 ▸ hs.nd_alloct,
    fun rid' e hg => by rw [hsame.2]; exact hs.fwd rid' e (hsame.1 ▸ hg),
    fun pba r hg => by rw [hsame.1]; exact hs.bwd pba r (hsame.2 ▸ hg)⟩

/-- Intermediate invariant while `clean_zone`'s move loop runs.  `Z` is the
zone's PBA-range predicate and `pend` lists the still-unmoved records with
their destinations.  The forward direction holds throughout; the backward
direction tolerates stale AllocT entries inside the zone (`bwdZ`), which
the range delete removes at the end; every RIDT entry still pointing into
the zone is pending (`zonePend`) and every pending record's current entry
points into the zone (`pendZone`). -/
structure MidInv (Z : PBA → Bool) (s : IdmlState)
    (pend : List (Nat × DRP)) : Prop where
  nd_ridt : KeysNodup s.ridt
  nd_alloct : KeysNodup s.alloct
  fwd : ∀ rid e, bmGet s.ridt rid = some e →
    bmGet s.alloct e.drp.pba = some rid
  bwdZ : ∀ pba rid, bmGet s.alloct pba = some rid →
    ∃ e, bmGet s.ridt rid = some e ∧ (e.drp.pba = pba ∨ Z pba = true)
  pendZone : ∀ p ∈ pend, ∃ e, bmGet s.ridt p.1 = some e ∧
    Z e.drp.pba = true
  zonePend : ∀ rid e, bmGet s.ridt rid = some e → Z e.drp.pba = true →
    rid ∈ pend.map Prod.fst
  pendNodup : (pend.map Prod.fst).Nodup

theorem midInv_step {c a b : Nat} {s s₁ : IdmlState} {rid : Nat}
    {ndrp : DRP} {rest : List (Nat × DRP)}
    (hm : MidInv (inZone c a b) s ((rid, ndrp) :: rest))
    (h : moveRecord c a b s rid ndrp = some s₁) :
    MidInv (inZone c a b) s₁ rest := by
  cases hg : bmGet s.ridt rid with
  | none => simp [moveRecord, hg] at h
  | some entry =>
  by_cases hz : inZone c a b ndrp.pba
  · simp [moveRecord, hg, hz] at h
  · by_cases hal : (bmGet s.alloct ndrp.pba).isSome
    · simp [moveRecord, hg, hz, hal] at h
    · cases hd : bmGet s.disk entry.drp.pba with
      | none => simp [moveRecord, hg, hz, hal, hd] at h
      | some v =>
      simp only [moveRecord, hg, hz, hal, hd, if_neg, Bool.false_eq_true,
        not_false_eq_true, if_false, Option.some.injEq] at h
      subst h
      have halloc : bmGet s.alloct ndrp.pba = none := by
        cases hh : bmGet s.alloct ndrp.pba with
        | none => rfl
        | some r => rw [hh] at hal; simp at hal
      have hznd : inZone c a b ndrp.pba = false := by
        cases hh : inZone c a b ndrp.pba with
        | false => rfl
        | true => exact absurd hh hz
      have hentryZ : inZone c a b entry.drp.pba = true := by
        obtain ⟨e, he, hze⟩ := hm.pendZone (rid, ndrp)
          (List.mem_cons_self _ _)
        have hee : e = entry := by
          rw [hg] at he; exact (Option.some.inj he).symm
        exact hee ▸ hze
      have hridrest : rid ∉ rest.map Prod.fst := by
        have := hm.pendNodup
        simp only [List.map_cons, List.nodup_cons] at this
        exact this.1
      refine ⟨keysNodup_insert hm.nd_ridt _ _,
        keysNodup_insert hm.nd_alloct _ _, ?_, ?_, ?_, ?_, ?_⟩
      · intro rid' e' hg'
        simp only at hg' ⊢
        by_cases hcase : rid' = rid
        · subst hcase
          rw [bmGet_insert_self] at hg'
          cases hg'
          exact bmGet_insert_self
        · rw [bmGet_insert_ne hcase] at hg'
          have hold := hm.fwd _ _ hg'
          have hne : e'.drp.pba ≠ ndrp.pba := by
            intro hh
            rw [hh, halloc] at hold
            cases hold
          rw [bmGet_insert_ne hne]
          exact hold
      · intro pba r hg'
        simp only at hg' ⊢
        by_cases hcase : pba = ndrp.pba
        · subst hcase
          rw [bmGet_insert_self] at hg'
          cases hg'
          exact ⟨⟨ndrp, entry.refcount⟩, bmGet_insert_self, Or.inl rfl⟩
        · rw [bmGet_insert_ne hcase] at hg'
          obtain ⟨e, he, hor⟩ := hm.bwdZ _ _ hg'
          by_cases hcr : r = rid
          · subst hcr
            have hee : e = entry := by
              rw [hg] at he; exact (Option.some.inj he).symm
            refine ⟨⟨ndrp, entry.refcount⟩, bmGet_insert_self, ?_⟩
            rcases hor with hpe | hzp
            · right
              rw [hee] at hpe
              rw [hpe] at hentryZ
              exact hentryZ
            · exact Or.inr hzp
          · exact ⟨e, by rw [bmGet_insert_ne hcr]; exact he, hor⟩
      · intro p hp
        obtain ⟨e, he, hze⟩ := hm.pendZone p (List.mem_cons_of_mem _ hp)
        have hne : p.1 ≠ rid := by
          intro hh
          exact hridrest (hh ▸ List.mem_map_of_mem Prod.fst hp)
        exact ⟨e, by simpa [bmGet_insert_ne hne] using he, hze⟩
      · intro rid' e' hg' hz'
        simp only at hg'
        by_cases hcase : rid' = rid
        · subst hcase
          rw [bmGet_insert_self] at hg'
          cases hg'
          rw [hznd] at hz'
          cases hz'
        · rw [bmGet_insert_ne hcase] at hg'
          have := hm.zonePend _ _ hg' hz'
          simp only [List.map_cons, List.mem_cons] at this
          rcases this with hh | hh
          · exact absurd hh hcase
          · exact hh
      · have := hm.pendNodup
        simp only [List.map_cons, List.nodup_cons] at this
        exact this.2

theorem midInv_moveAll {c a b : Nat} :
    ∀ (pend : List (Nat × DRP)) (s s' : IdmlState),
      MidInv (inZone c a b) s pend →
      moveAll c a b s pend = some s' →
      MidInv (inZone c a b) s' []
  | [], s, s', hm, h => by
      simp only [moveAll, Option.some.injEq] at h
      exact h ▸ hm
  | (rid, ndrp) :: rest, s, s', hm, h => by
      simp only [moveAll] at h
      cases hstep : moveRecord c a b s rid ndrp with
      | none => rw [hstep] at h; cases h
      | some s₁ =>
          rw [hstep] at h
          exact midInv_moveAll rest s₁ s' (midInv_step hm hstep) h

theorem bmGet_filter_key {α β : Type} [DecidableEq α] (f : α → Bool)
    (l : List (α × β)) (k : α) :
    bmGet (l.filter (fun p => f p.1)) k =
      if f k then bmGet l k else none := by
  induction l with
  | nil => cases hf : f k <;> simp [bmGet]
  | cons p t ih =>
      by_cases hf : f p.1
      · rw [List.filter_cons_of_pos (by simpa using hf)]
        by_cases hk : p.1 = k
        · subst hk
          simp [bmGet, hf]
        · simp only [bmGet, if_neg hk]
          exact ih
      · rw [List.filter_cons_of_neg (by simpa using hf)]
        by_cases hk : p.1 = k
        · subst hk
          simp only [bmGet, if_pos rfl]
          rw [ih]
          cases hh : f p.1 with
          | false => rfl
          | true => exact absurd hh hf
        · simp only [bmGet, if_neg hk]
          exact ih

theorem inv_of_midInv_final {c a b : Nat} {s : IdmlState}
    (hm : MidInv (inZone c a b) s []) :
    Inv { s with alloct :=
            s.alloct.filter (fun p => !(inZone c a b p.1)) } := by
  refine ⟨hm.nd_ridt, List.Pairwise.filter _ hm.nd_alloct, ?_, ?_⟩
  · intro rid e hg
    simp only at hg ⊢
    have hznot : inZone c a b e.drp.pba = false := by
      cases hh : inZone c a b e.drp.pba with
      | false => rfl
      | true =>
          have := hm.zonePend _ _ hg hh
          simp at this
    rw [bmGet_filter_key (fun x => !(inZone c a b x)), hznot]
    simp only [Bool.not_false, if_true]
    exact hm.fwd _ _ hg
  · intro pba r hg
    simp only at hg ⊢
    rw [bmGet_filter_key (fun x => !(inZone c a b x))] at hg
    by_cases hz : inZone c a b pba
    · rw [hz] at hg
      simp at hg
    · have hz' : inZone c a b pba = false := by
        cases hh : inZone c a b pba with
        | false => rfl
        | true => exact absurd hh hz
      rw [hz'] at hg
      simp only [Bool.not_false, if_true] at hg
      obtain ⟨e, he, hor⟩ := hm.bwdZ _ _ hg
      rcases hor with hpe | hzp
      · exact ⟨e, he, hpe⟩
      · rw [hz'] at hzp
        cases hzp

theorem midInv_init {c a b : Nat} {s : IdmlState} (hs : Inv s)
    (newDrps : List DRP)
    (hlen : ((s.alloct.filter
        (fun p => inZone c a b p.1)).map (·.2)).length = newDrps.length) :
    MidInv (inZone c a b) s
      (((s.alloct.filter
          (fun p => inZone c a b p.1)).map (·.2)).zip newDrps) := by
  have hmapfst : ((((s.alloct.filter
      (fun p => inZone c a b p.1)).map (·.2)).zip newDrps).map Prod.fst) =
      (s.alloct.filter (fun p => inZone c a b p.1)).map (·.2) :=
    List.map_fst_zip _ _ (le_of_eq hlen)
  refine ⟨hs.nd_ridt, hs.nd_alloct, hs.fwd, ?_, ?_, ?_, ?_⟩
  · intro pba rid hg
    obtain ⟨e, he, hpe⟩ := hs.bwd _ _ hg
    exact ⟨e, he, Or.inl hpe⟩
  · rintro ⟨r, d⟩ hp
    have hr : r ∈ (s.alloct.filter (fun p => inZone c a b p.1)).map (·.2) :=
      (List.of_mem_zip hp).1
    obtain ⟨q, hqmem, hq2⟩ := List.mem_map.mp hr
    have hq := List.mem_filter.mp hqmem
    have hget : bmGet s.alloct q.1 = some q.2 := by
      apply bmGet_eq_some_of_mem hs.nd_alloct
      exact (Prod.mk.eta ▸ hq.1)
    obtain ⟨e, he, hpe⟩ := hs.bwd _ _ hget
    refine ⟨e, by rw [hq2] at he; exact he, ?_⟩
    rw [hpe]
    simpa using hq.2
  · intro rid e hg hz
    rw [hmapfst]
    have hget := hs.fwd _ _ hg
    have hmem : (e.drp.pba, rid) ∈ s.alloct := mem_of_bmGet_eq_some hget
    have hfil : (e.drp.pba, rid) ∈ s.alloct.filter
        (fun p => inZone c a b p.1) :=
      List.mem_filter.mpr ⟨hmem, by simpa using hz⟩
    exact List.mem_map.mpr ⟨(e.drp.pba, rid), hfil, rfl⟩
  · rw [hmapfst]
    have hpw : s.alloct.Pairwise (fun q1 q2 => q1.2 ≠ q2.2) := by
      refine List.Pairwise.imp_of_mem ?_ hs.nd_alloct
      intro q1 q2 h1 h2 hne heq
      have hg1 : bmGet s.alloct q1.1 = some q1.2 :=
        bmGet_eq_some_of_mem hs.nd_alloct (Prod.mk.eta ▸ h1)
      have hg2 : bmGet s.alloct q2.1 = some q2.2 :=
        bmGet_eq_some_of_mem hs.nd_alloct (Prod.mk.eta ▸ h2)
      obtain ⟨e1, he1, hpe1⟩ := hs.bwd _ _ hg1
      obtain ⟨e2, he2, hpe2⟩ := hs.bwd _ _ hg2
      rw [heq] at he1
      have hee : e1 = e2 := by rw [he1] at he2; exact Option.some.inj he2
      exact hne (hpe1 ▸ hee ▸ hpe2 ▸ rfl)
    have hfil := List.Pairwise.filter
      (fun p => inZone c a b p.1 : PBA × Nat → Bool) hpw
    exact List.Pairwise.map _ (fun p q hpq => hpq) hfil

theorem inv_cleanZone {s s' : IdmlState} {c a b : Nat} {drps : List DRP}
    (hs : Inv s) (h : idmlCleanZone s c a b drps = some s') : Inv s' := by
  simp only [idmlCleanZone] at h
  by_cases hlen : ((s.alloct.filter
      (fun p => inZone c a b p.1)).map (·.2)).length = drps.length
  · rw [if_pos hlen] at h
    cases hma : moveAll c a b s
        (((s.alloct.filter (fun p => inZone c a b p.1)).map (·.2)).zip drps)
      with
    | none => rw [hma] at h; cases h
    | some s'' =>
        rw [hma] at h
        simp only [Option.some.injEq] at h
        subst h
        have hmid := midInv_moveAll _ _ _ (midInv_init hs drps hlen) hma
        exact inv_of_midInv_final hmid
  · rw [if_neg hlen] at h
    cases h

theorem inv_applyOp {s s' : IdmlState} {op : IdmlOp} (hs : Inv s)
    (h : applyOp s op = some s') : Inv s' := by
  cases op with
  | put v drp =>
      cases hp : idmlPut s v drp with
      | none => simp [applyOp, hp] at h
      | some pr =>
          obtain ⟨rid, st⟩ := pr
          simp only [applyOp, hp, Option.map_some] at h
          cases h
          exact inv_put hs hp
  | get rid =>
      cases hp : idmlGet s rid with
      | none => simp [applyOp, hp] at h
      | some pr =>
          obtain ⟨v, st⟩ := pr
          simp only [applyOp, hp, Option.map_some] at h
          cases h
          exact inv_get hs hp
  | delete rid => exact inv_delete hs h
  | pop rid =>
      cases hp : idmlPop s rid with
      | none => simp [applyOp, hp] at h
      | some pr =>
          obtain ⟨v, st⟩ := pr
          simp only [applyOp, hp, Option.map_some] at h
          cases h
          exact inv_pop hs hp
  | cleanZone c a b drps => exact inv_cleanZone hs h

theorem inv_runOps : ∀ (ops : List IdmlOp) (s s' : IdmlState), Inv s →
    runOps s ops = some s' → Inv s'
  | [], s, s', hs, h => by
      simp only [runOps, Option.some.injEq] at h
      exact h ▸ hs
  | op :: rest, s, s', hs, h => by
      simp only [runOps] at h
      cases hstep : applyOp s op with
      | none => rw [hstep] at h; cases h
      | some s₁ =>
          rw [hstep] at h
          exact inv_runOps rest s₁ s' (inv_applyOp hs hstep) h

theorem check_ridt_of_inv {s : IdmlState} (hs : Inv s) :
    check_ridt s = true := by
  rw [check_ridt, Bool.and_eq_true]
  constructor
  · rw [List.all_eq_true]
    intro p hp
    have hget : bmGet s.alloct p.1 = some p.2 :=
      bmGet_eq_some_of_mem hs.nd_alloct (Prod.mk.eta ▸ hp)
    obtain ⟨e, he, hpe⟩ := hs.bwd _ _ hget
    rw [he]
    simpa using hpe
  · rw [List.all_eq_true]
    intro q hq
    have hget : bmGet s.ridt q.1 = some q.2 :=
      bmGet_eq_some_of_mem hs.nd_ridt (Prod.mk.eta ▸ hq)
    have := hs.fwd _ _ hget
    simp [this]

/-! ## Claim C1 -/

/-- C1: after every sequence of successful IDML operations (put, get,
delete, pop, clean_zone) starting from the empty IDML, the RIDT and the
AllocT are exact inverses over live PBAs — every RIDT entry's `drp.pba`
maps back to its RID in the AllocT, every AllocT entry maps to a RIDT entry
whose `drp.pba` is that PBA — and `check_ridt` returns `true`. -/
theorem C1_ridt_alloct_inverse (ops : List IdmlOp) (s : IdmlState)
    (h : runOps initialIdml ops = some s) :
    (∀ rid e, bmGet s.ridt rid = some e →
      bmGet s.alloct e.drp.pba = some rid) ∧
    (∀ pba rid, bmGet s.alloct pba = some rid →
      ∃ e, bmGet s.ridt rid = some e ∧ e.drp.pba = pba) ∧
    check_ridt s = true := by
  have hinv := inv_runOps ops _ s inv_initial h
  exact ⟨hinv.fwd, hinv.bwd, check_ridt_of_inv hinv⟩

/-- A concrete operation sequence: two puts, a pop, a zone clean that moves
the surviving record out of the zone, and a get. -/
def opsW : List IdmlOp :=
  [ .put [1] ⟨⟨0, 0⟩, false, 4096, 4096, 11⟩,
    .put [2] ⟨⟨0, 1⟩, false, 4096, 4096, 22⟩,
    .pop 1,
    .cleanZone 0 0 4 [⟨⟨0, 100⟩, false, 4096, 4096, 33⟩],
    .get 0 ]

/-- The state reached by `opsW`. -/
def sWC1 : IdmlState := (runOps initialIdml opsW).getD initialIdml

/-- Witness for C1 at the concrete sequence `opsW`. -/
theorem C1_ridt_alloct_inverse_witness : check_ridt sWC1 = true :=
  (C1_ridt_alloct_inverse opsW sWC1 (by decide)).2.2

/-! ## Claim C2 -/

/-- C2: on the empty IDML, `put v` returns RID 0; a subsequent `get 0`
returns `v`; and afterwards the RIDT and the AllocT each hold exactly one
entry, whose RIDT refcount is 1. -/
theorem C2_put_get_roundtrip (v : Val) (drp : DRP) :
    ∃ s', idmlPut initialIdml v drp = some (0, s') ∧
      idmlGet s' 0 = some (v, s') ∧
      s'.ridt = [(0, ⟨drp, 1⟩)] ∧
      s'.alloct = [(drp.pba, 0)] := by
  refine ⟨_, rfl, ?_, ?_, ?_⟩
  · rfl
  · simp [initialIdml, bmInsert, bmErase]
  · simp [initialIdml, bmInsert, bmErase]

/-! ## Claim C3 -/

/-- C3: for a RID present in the RIDT with refcount `r`: if `r ≥ 2`,
`delete` re-inserts the RIDT entry with refcount `r - 1` and leaves the
AllocT (and everything else) unchanged; if `r = 1`, `delete` removes the
RIDT entry, the AllocT entry of its PBA, and the cache entry `Key::Rid`. -/
theorem C3_delete_refcount (s : IdmlState) (rid : Nat) (e : RidtEntry)
    (hg : bmGet s.ridt rid = some e) :
    (2 ≤ e.refcount →
      idmlDelete s rid =
        some { s with ridt := bmInsert s.ridt rid ⟨e.drp, e.refcount - 1⟩ } ∧
      bmGet (bmInsert s.ridt rid ⟨e.drp, e.refcount - 1⟩) rid =
        some ⟨e.drp, e.refcount - 1⟩) ∧
    (e.refcount = 1 → (bmGet s.alloct e.drp.pba).isSome →
      idmlDelete s rid =
        some { ridt := bmRemove s.ridt rid,
               alloct := bmRemove s.alloct e.drp.pba,
               next_rid := s.next_rid,
               cache := bmRemove s.cache rid,
               disk := bmRemove s.disk e.drp.pba } ∧
      bmGet (bmRemove s.ridt rid) rid = none ∧
      bmGet (bmRemove s.alloct e.drp.pba) e.drp.pba = none ∧
      bmGet (bmRemove s.cache rid) rid = none) := by
  constructor
  · intro hrc
    have hne : e.refcount - 1 ≠ 0 := by omega
    refine ⟨?_, bmGet_insert_self⟩
    simp only [idmlDelete, hg, if_neg hne]
  · intro hrc hal
    have hz : e.refcount - 1 = 0 := by omega
    cases ha : bmGet s.alloct e.drp.pba with
    | none => rw [ha] at hal; simp at hal
    | some r =>
        refine ⟨?_, bmGet_erase_self, bmGet_erase_self, bmGet_erase_self⟩
        simp only [idmlDelete, hg, hz, ha, if_true]

/-- Concrete state with a doubly-referenced record, as in the
`delete_notlast` unit test. -/
def sC3a : IdmlState :=
  { ridt := [(42, ⟨⟨⟨0, 7⟩, false, 4096, 4096, 5⟩, 2⟩)],
    alloct := [(⟨0, 7⟩, 42)],
    next_rid := 43,
    cache := [],
    disk := [(⟨0, 7⟩, [9])] }

/-- Concrete state with a singly-referenced record, as in the
`delete_last` unit test. -/
def sC3b : IdmlState :=
  { ridt := [(42, ⟨⟨⟨0, 7⟩, false, 4096, 4096, 5⟩, 1⟩)],
    alloct := [(⟨0, 7⟩, 42)],
    next_rid := 43,
    cache := [(42, [9])],
    disk := [(⟨0, 7⟩, [9])] }

/-- Witness for C3: both the refcount-2 and the refcount-1 branch at
concrete injected states. -/
theorem C3_delete_refcount_witness :
    (idmlDelete sC3a 42 =
      some { sC3a with
             ridt := bmInsert sC3a.ridt 42 ⟨⟨⟨0, 7⟩, false, 4096, 4096, 5⟩, 1⟩ }) ∧
    (idmlDelete sC3b 42 =
      some { ridt := bmRemove sC3b.ridt 42,
             alloct := bmRemove sC3b.alloct ⟨0, 7⟩,
             next_rid := sC3b.next_rid,
             cache := bmRemove sC3b.cache 42,
             disk := bmRemove sC3b.disk ⟨0, 7⟩ }) :=
  ⟨((C3_delete_refcount sC3a 42 ⟨⟨⟨0, 7⟩, false, 4096, 4096, 5⟩, 2⟩
      (by decide)).1 (by decide)).1,
   ((C3_delete_refcount sC3b 42 ⟨⟨⟨0, 7⟩, false, 4096, 4096, 5⟩, 1⟩
      (by decide)).2 (by decide) (by decide)).1⟩

/-! ## The cluster free-space map (`src/common/cluster.rs`)

The `BTreeSet<Nat>` of empty zones and the `BTreeMap<Nat, OpenZone>`
of open zones are embedded as sorted lists; their ascending iteration
order is what `try_allocate` and `find_empty` rely on. -/

/-- In-memory zone bookkeeping, `struct Zone` (its `Default` is all
zeroes). -/
structure Zone where
  freed_blocks : Nat := 0
  total_blocks : Nat := 0
deriving DecidableEq, Repr, Inhabited

/-- `struct OpenZone`. -/
structure OpenZone where
  start : Nat
  write_pointer : Nat
deriving DecidableEq, Repr

/-- `struct FreeSpaceMap`.  Zones past `zones.length`, and zones listed in
`empty_zones`, are Empty; zones keyed in `open_zones` are Open; the rest
are Closed. -/
structure FreeSpaceMap where
  zones : List Zone
  empty_zones : List Nat
  open_zones : List (Nat × OpenZone)
  total_zones : Nat
deriving DecidableEq, Repr

/-- Sorted insertion into the `open_zones` map (a `BTreeMap` keeps its
keys sorted). -/
def ozInsert : List (Nat × OpenZone) → Nat → OpenZone →
    List (Nat × OpenZone)
  | [], k, v => [(k, v)]
  | (k', v') :: t, k, v =>
      if k < k' then (k, v) :: (k', v') :: t
      else if k = k' then (k, v) :: t
      else (k', v') :: ozInsert t k v

/-- Advance the write pointer of one open zone in place (the
`oz.write_pointer += lbas` inside `try_allocate`). -/
def ozAdvance : List (Nat × OpenZone) → Nat → Nat →
    List (Nat × OpenZone)
  | [], _, _ => []
  | (k, oz) :: t, zid, lbas =>
      if k = zid then
        (k, ⟨oz.start, oz.write_pointer + lbas⟩) :: ozAdvance t zid lbas
      else
        (k, oz) :: ozAdvance t zid lbas

namespace FreeSpaceMap

/-- `FreeSpaceMap::new`. -/
def new (total_zones : Nat) : FreeSpaceMap :=
  { zones := [], empty_zones := [], open_zones := [], total_zones }

/-- `FreeSpaceMap::is_empty`: a zone is empty when its id is past
`zones.len()` or it is explicitly listed. -/
def is_empty (fsm : FreeSpaceMap) (zid : Nat) : Bool :=
  fsm.zones.length ≤ zid || fsm.empty_zones.contains zid

/-- `FreeSpaceMap::find_empty`: the smallest explicitly empty zone, else
the first id past `zones.len()` when that is below `total_zones`. -/
def find_empty (fsm : FreeSpaceMap) : Option Nat :=
  match fsm.empty_zones.head? with
  | some z => some z
  | none =>
      if fsm.zones.length < fsm.total_zones then some fsm.zones.length
      else none

/-- `FreeSpaceMap::finish_zone`: close an open zone (asserts it was
open). -/
def finish_zone (fsm : FreeSpaceMap) (zid : Nat) : Option FreeSpaceMap :=
  if (bmGet fsm.open_zones zid).isSome then
    some { fsm with open_zones := bmErase fsm.open_zones zid }
  else
    none

/-- `FreeSpaceMap::free`: add to the zone's freed-block count; the asserts
(`Can't free from an empty zone`, `Double free detected`, and the open-zone
variant) are embedded as `none`. -/
def free (fsm : FreeSpaceMap) (zid : Nat) (length : Nat) :
    Option FreeSpaceMap :=
  if fsm.is_empty zid then none
  else
    match fsm.zones.get? zid with
    | none => none
    | some zone =>
        let zones' :=
          fsm.zones.set zid ⟨zone.freed_blocks + length, zone.total_blocks⟩
        if zone.freed_blocks + length ≤ zone.total_blocks then
          match bmGet fsm.open_zones zid with
          | some oz =>
              if zone.freed_blocks + length ≤
                  oz.write_pointer - oz.start then
                some { fsm with zones := zones' }
              else none
          | none => some { fsm with zones := zones' }
        else none

/-- `FreeSpaceMap::open_zone`: open the empty zone `id` spanning LBAs
`[start, stop)` and, if `lbas` is nonzero and fits, immediately allocate.
Zones skipped over by growing `zones` become explicitly empty.  Asserts
(`Can only open empty zones`, and the `empty_zones.insert` return check)
are embedded as `none`; the allocation result is the inner `Option`. -/
def open_zone (fsm : FreeSpaceMap) (id : Nat) (start stop : Nat)
    (lbas : Nat) : Option (Option (Nat × Nat) × FreeSpaceMap) :=
  if fsm.is_empty id = false then none
  else if ((List.range' fsm.zones.length
      (id + 1 - fsm.zones.length)).filter (fun z => z ≠ id)).any
        (fun z => fsm.empty_zones.contains z) then none
  else if (bmGet fsm.open_zones id).isSome then none
  else
    let padIds := (List.range' fsm.zones.length
      (id + 1 - fsm.zones.length)).filter (fun z => z ≠ id)
    let zones₁ :=
      if fsm.zones.length ≤ id then
        fsm.zones ++ List.replicate (id + 1 - fsm.zones.length) ⟨0, 0⟩
      else fsm.zones
    let space := stop - start
    let zones₂ := zones₁.set id ⟨0, space⟩
    let alloc := 0 < lbas ∧ lbas ≤ space
    let wp := if alloc then start + lbas else start
    let oz : OpenZone := ⟨start, wp⟩
    let empty₂ := (fsm.empty_zones ++ padIds).filter (fun z => z ≠ id)
    some (if alloc then some (id, start) else none,
      { zones := zones₂,
        empty_zones := empty₂,
        open_zones := ozInsert fsm.open_zones id oz,
        total_zones := fsm.total_zones })

/-- Available contiguous tail of an open zone:
`zone.total_blocks - (oz.write_pointer - oz.start)` in `try_allocate`. -/
def avail (fsm : FreeSpaceMap) (zid : Nat) (oz : OpenZone) : Nat :=
  (fsm.zones.getD zid default).total_blocks - (oz.write_pointer - oz.start)

/-- The scan inside `try_allocate`: first open zone (in ascending id
order) whose tail holds `lbas`. -/
def tryAllocGo (fsm : FreeSpaceMap) (lbas : Nat) :
    List (Nat × OpenZone) → Option (Nat × OpenZone)
  | [] => none
  | (zid, oz) :: t =>
      if lbas ≤ fsm.avail zid oz then some (zid, oz)
      else tryAllocGo fsm lbas t

/-- `FreeSpaceMap::try_allocate`: allocate from the first open zone that
fits, advancing its write pointer; the map is unchanged on failure. -/
def try_allocate (fsm : FreeSpaceMap) (lbas : Nat) :
    Option (Nat × Nat) × FreeSpaceMap :=
  match fsm.tryAllocGo lbas fsm.open_zones with
  | none => (none, fsm)
  | some (zid, oz) =>
      (some (zid, oz.write_pointer),
       { fsm with open_zones := ozAdvance fsm.open_zones zid lbas })

end FreeSpaceMap

/-- `Cluster::write` (cluster.rs:267-284): `space = buf.len() /
BYTES_PER_LBA`; try an open zone, else open the `find_empty` zone with the
vdev's `zone_limits`, else (or when the opened zone could not hold the
allocation) fail with `ENOSPC`.  The outer `Option` is an assertion
failure inside `open_zone`; the inner `Option` is `ENOSPC` versus the
`(lba, zone)` passed on to `vdev.write_at` — on the `none` branch the vdev
receives no `write_at` (and `Cluster::write` never calls the vdev's
`open_zone` at all). -/
def clusterWrite (fsm : FreeSpaceMap) (zl : Nat → Nat × Nat)
    (buflen : Nat) : Option (Option (Nat × Nat) × FreeSpaceMap) :=
  let space := buflen / BYTES_PER_LBA
  match fsm.try_allocate space with
  | (some (z, lba), fsm') => some (some (z, lba), fsm')
  | (none, _) =>
      match fsm.find_empty with
      | none => some (none, fsm)
      | some zid =>
          match fsm.open_zone zid (zl zid).1 (zl zid).2 space with
          | none => none
          | some (some (z, lba), fsm₂) => some (some (z, lba), fsm₂)
          | some (none, fsm₂) => some (none, fsm₂)

/-! ## Claim C10 -/

/-- Free-space map of a cluster whose vdev reports 32768 zones, as in the
`write_zones_too_small` unit test. -/
def fsmC10 : FreeSpaceMap := FreeSpaceMap.new 32768

/-- Zone limits of that vdev: every zone holds a single LBA. -/
def zlC10 : Nat → Nat × Nat := fun _ => (0, 1)

/-- C10: an 8192-byte write (2 LBAs) on a cluster whose empty zone 0 holds
only 1 LBA returns `ENOSPC` (the inner `none`, so no `write_at` reaches
the vdev — and `Cluster::write` never calls the vdev's `open_zone`), yet
the free-space map has been mutated: zone 0 is now in `open_zones` with
its write pointer at the zone start, `total_blocks` set to 1 and
`freed_blocks` reset, although nothing was or can be written there. -/
theorem C10_enospc_leaves_zone_open :
    clusterWrite fsmC10 zlC10 8192 =
      some (none,
        { zones := [⟨0, 1⟩], empty_zones := [],
          open_zones := [(0, ⟨0, 0⟩)], total_zones := 32768 }) ∧
    fsmC10.open_zones = [] ∧ fsmC10.zones = [] := by
  decide

/-! ## Claim C6 -/

/-- A free-space map with one open zone of 1000 free LBAs. -/
def fsmC6 : FreeSpaceMap :=
  { zones := [⟨0, 1000⟩], empty_zones := [],
    open_zones := [(0, ⟨0, 0⟩)], total_zones := 32768 }

/-- C6 evaluated at the failing input: `Cluster::write` computes
`space = buf.len() / BYTES_PER_LBA` with flooring integer division, so a
4097-byte buffer allocates 1 LBA (the write pointer advances from 0 to 1),
while the ceiling — which the claim states, and which `DRP::asize` uses on
the read path — is 2. -/
theorem C6_floor_allocation_eval :
    clusterWrite fsmC6 (fun _ => (0, 1000)) 4097 =
      some (some (0, 0),
        { fsmC6 with open_zones := [(0, ⟨0, 1⟩)] }) ∧
    4097 / BYTES_PER_LBA = 1 ∧
    (4097 + BYTES_PER_LBA - 1) / BYTES_PER_LBA = 2 := by
  decide

/-! ## Allocation-policy lemmas for C5 and C4 -/

theorem bmGet_ozInsert_self : ∀ (l : List (Nat × OpenZone)) (k : Nat)
    (v : OpenZone), bmGet (ozInsert l k v) k = some v
  | [], k, v => by simp [ozInsert, bmGet]
  | (k', v') :: t, k, v => by
      by_cases h1 : k < k'
      · simp [ozInsert, h1, bmGet]
      · by_cases h2 : k = k'
        · simp [ozInsert, h1, h2, bmGet]
        · have hne : k' ≠ k := fun hh => h2 hh.symm
          simp only [ozInsert, if_neg h1, if_neg h2, bmGet, if_neg hne]
          exact bmGet_ozInsert_self t k v

theorem bmGet_ozInsert_ne : ∀ (l : List (Nat × OpenZone)) (k k' : Nat)
    (v : OpenZone), k' ≠ k → bmGet (ozInsert l k v) k' = bmGet l k'
  | [], k, k', v, h => by
      have hkk : ¬ (k = k') := fun hh => h hh.symm
      simp [ozInsert, bmGet, hkk]
  | (k₀, v₀) :: t, k, k', v, h => by
      have hkk : ¬ (k = k') := fun hh => h hh.symm
      by_cases h1 : k < k₀
      · simp [ozInsert, h1, bmGet, hkk]
      · by_cases h2 : k = k₀
        · subst h2
          simp [ozInsert, h1, bmGet, hkk]
        · simp only [ozInsert, if_neg h1, if_neg h2, bmGet]
          by_cases h3 : k₀ = k'
          · simp [h3]
          · simp only [if_neg h3]
            exact bmGet_ozInsert_ne t k k' v h

theorem bmGet_ozAdvance_ne : ∀ (l : List (Nat × OpenZone))
    (zid k : Nat) (lbas : Nat), k ≠ zid →
    bmGet (ozAdvance l zid lbas) k = bmGet l k
  | [], _, _, _, _ => rfl
  | (k₀, v₀) :: t, zid, k, lbas, h => by
      by_cases h1 : k₀ = zid
      · subst h1
        have h2 : ¬ (k₀ = k) := fun hh => h hh.symm
        simp only [ozAdvance, if_pos rfl, bmGet, if_neg h2]
        exact bmGet_ozAdvance_ne t k₀ k lbas h
      · simp only [ozAdvance, if_neg h1, bmGet]
        by_cases h2 : k₀ = k
        · simp [h2]
        · simp only [if_neg h2]
          exact bmGet_ozAdvance_ne t zid k lbas h

theorem bmGet_ozAdvance_self : ∀ (l : List (Nat × OpenZone))
    (zid : Nat) (lbas : Nat),
    bmGet (ozAdvance l zid lbas) zid =
      (bmGet l zid).map (fun oz => ⟨oz.start, oz.write_pointer + lbas⟩)
  | [], _, _ => rfl
  | (k₀, v₀) :: t, zid, lbas => by
      by_cases h1 : k₀ = zid
      · subst h1
        simp [ozAdvance, bmGet]
      · simp only [ozAdvance, if_neg h1, bmGet, if_neg h1]
        exact bmGet_ozAdvance_self t zid lbas

namespace FreeSpaceMap

theorem tryAllocGo_mem (fsm : FreeSpaceMap) (lbas : Nat) :
    ∀ (l : List (Nat × OpenZone)) (zid : Nat) (oz : OpenZone),
      fsm.tryAllocGo lbas l = some (zid, oz) →
      (zid, oz) ∈ l ∧ lbas ≤ fsm.avail zid oz
  | [], zid, oz, h => by simp [tryAllocGo] at h
  | (k₀, v₀) :: t, zid, oz, h => by
      by_cases hf : lbas ≤ fsm.avail k₀ v₀
      · simp only [tryAllocGo, if_pos hf, Option.some.injEq,
          Prod.mk.injEq] at h
        obtain ⟨h1, h2⟩ := h
        subst h1; subst h2
        exact ⟨List.mem_cons_self _ _, hf⟩
      · simp only [tryAllocGo, if_neg hf] at h
        have := tryAllocGo_mem fsm lbas t zid oz h
        exact ⟨List.mem_cons_of_mem _ this.1, this.2⟩

theorem tryAllocGo_least (fsm : FreeSpaceMap) (lbas : Nat) :
    ∀ (l : List (Nat × OpenZone)),
      l.Pairwise (fun p q => p.1 < q.1) →
      ∀ (zid : Nat) (oz : OpenZone),
        fsm.tryAllocGo lbas l = some (zid, oz) →
        ∀ q ∈ l, q.1 < zid → ¬ lbas ≤ fsm.avail q.1 q.2
  | [], _, zid, oz, h => by simp [tryAllocGo] at h
  | (k₀, v₀) :: t, hs, zid, oz, h => by
      by_cases hf : lbas ≤ fsm.avail k₀ v₀
      · simp only [tryAllocGo, if_pos hf, Option.some.injEq,
          Prod.mk.injEq] at h
        obtain ⟨h1, h2⟩ := h
        subst h1; subst h2
        intro q hq hlt
        rcases List.mem_cons.mp hq with hq1 | hq2
        · subst hq1
          exact absurd hlt (lt_irrefl _)
        · have := (List.pairwise_cons.mp hs).1 _ hq2
          exact absurd hlt (not_lt.mpr (le_of_lt this))
      · simp only [tryAllocGo, if_neg hf] at h
        intro q hq hlt
        rcases List.mem_cons.mp hq with hq1 | hq2
        · subst hq1
          exact hf
        · exact tryAllocGo_least fsm lbas t
            (List.pairwise_cons.mp hs).2 zid oz h q hq2 hlt

theorem tryAllocGo_none (fsm : FreeSpaceMap) (lbas : Nat) :
    ∀ (l : List (Nat × OpenZone)),
      fsm.tryAllocGo lbas l = none →
      ∀ q ∈ l, ¬ lbas ≤ fsm.avail q.1 q.2
  | [], _, q, hq => by simp at hq
  | (k₀, v₀) :: t, h, q, hq => by
      by_cases hf : lbas ≤ fsm.avail k₀ v₀
      · simp [tryAllocGo, if_pos hf] at h
      · simp only [tryAllocGo, if_neg hf] at h
        rcases List.mem_cons.mp hq with hq1 | hq2
        · subst hq1; exact hf
        · exact tryAllocGo_none fsm lbas t h q hq2

/-- The keys of a strictly sorted association list are pairwise
distinct. -/
theorem keysNodup_of_sorted {l : List (Nat × OpenZone)}
    (h : l.Pairwise (fun p q => p.1 < q.1)) : KeysNodup l :=
  h.imp (fun hpq => Nat.ne_of_lt hpq)

theorem try_allocate_some {fsm : FreeSpaceMap} {lbas : Nat}
    {z : Nat} {lba : Nat} {fsm' : FreeSpaceMap}
    (hs : fsm.open_zones.Pairwise (fun p q => p.1 < q.1))
    (h : fsm.try_allocate lbas = (some (z, lba), fsm')) :
    ∃ oz, bmGet fsm.open_zones z = some oz ∧
      lbas ≤ fsm.avail z oz ∧
      lba = oz.write_pointer ∧
      (∀ q ∈ fsm.open_zones, q.1 < z → ¬ lbas ≤ fsm.avail q.1 q.2) ∧
      fsm' = { fsm with
               open_zones := ozAdvance fsm.open_zones z lbas } := by
  cases hgo : fsm.tryAllocGo lbas fsm.open_zones with
  | none =>
      simp [try_allocate, hgo] at h
  | some p =>
      obtain ⟨zid, oz⟩ := p
      simp only [try_allocate, hgo, Prod.mk.injEq, Option.some.injEq] at h
      obtain ⟨⟨hz, hlba⟩, hfsm⟩ := h
      subst hz
      have hmem := tryAllocGo_mem fsm lbas _ _ _ hgo
      refine ⟨oz, bmGet_eq_some_of_mem (keysNodup_of_sorted hs) hmem.1,
        hmem.2, hlba.symm, tryAllocGo_least fsm lbas _ hs _ _ hgo,
        hfsm.symm⟩

theorem try_allocate_some_mem {fsm : FreeSpaceMap} {lbas : Nat}
    {z : Nat} {lba : Nat} {fsm' : FreeSpaceMap}
    (h : fsm.try_allocate lbas = (some (z, lba), fsm')) :
    ∃ oz, (z, oz) ∈ fsm.open_zones ∧ lbas ≤ fsm.avail z oz ∧
      lba = oz.write_pointer ∧
      fsm' = { fsm with open_zones := ozAdvance fsm.open_zones z lbas } := by
  cases hgo : fsm.tryAllocGo lbas fsm.open_zones with
  | none => simp [try_allocate, hgo] at h
  | some p =>
      obtain ⟨zid, oz⟩ := p
      simp only [try_allocate, hgo, Prod.mk.injEq, Option.some.injEq] at h
      obtain ⟨⟨hz, hlba⟩, hfsm⟩ := h
      subst hz
      have hmem := tryAllocGo_mem fsm lbas _ _ _ hgo
      exact ⟨oz, hmem.1, hmem.2, hlba.symm, hfsm.symm⟩

theorem try_allocate_none {fsm : FreeSpaceMap} {lbas : Nat}
    (h : (fsm.try_allocate lbas).1 = none) :
    ∀ q ∈ fsm.open_zones, ¬ lbas ≤ fsm.avail q.1 q.2 := by
  cases hgo : fsm.tryAllocGo lbas fsm.open_zones with
  | none => exact tryAllocGo_none fsm lbas _ hgo
  | some p =>
      obtain ⟨zid, oz⟩ := p
      simp [try_allocate, hgo] at h

theorem find_empty_some {fsm : FreeSpaceMap}
    (hs : fsm.empty_zones.Pairwise (· < ·)) {zid : Nat}
    (h : fsm.find_empty = some zid) :
    (zid ∈ fsm.empty_zones ∧ ∀ z ∈ fsm.empty_zones, zid ≤ z) ∨
    (fsm.empty_zones = [] ∧ zid = fsm.zones.length ∧
      fsm.zones.length < fsm.total_zones) := by
  cases he : fsm.empty_zones with
  | nil =>
      right
      rw [find_empty, he] at h
      simp only [List.head?_nil] at h
      by_cases hlt : fsm.zones.length < fsm.total_zones
      · rw [if_pos hlt] at h
        exact ⟨rfl, (Option.some.inj h).symm, hlt⟩
      · rw [if_neg hlt] at h
        cases h
  | cons e t =>
      left
      rw [find_empty, he] at h
      simp only [List.head?_cons, Option.some.injEq] at h
      subst h
      rw [he] at hs
      refine ⟨List.mem_cons_self _ _, ?_⟩
      intro x hx
      rcases List.mem_cons.mp hx with hx1 | hx2
      · exact le_of_eq hx1.symm
      · exact le_of_lt ((List.pairwise_cons.mp hs).1 _ hx2)

theorem find_empty_none {fsm : FreeSpaceMap}
    (h : fsm.find_empty = none) :
    fsm.empty_zones = [] ∧ fsm.total_zones ≤ fsm.zones.length := by
  cases he : fsm.empty_zones with
  | nil =>
      rw [find_empty, he] at h
      simp only [List.head?_nil] at h
      by_cases hlt : fsm.zones.length < fsm.total_zones
      · rw [if_pos hlt] at h; cases h
      · exact ⟨rfl, le_of_not_lt hlt⟩
  | cons e t =>
      rw [find_empty, he] at h
      simp at h

/-- Unfolding of a successful `open_zone`: the zone was empty and not
open, the allocation result is determined by `0 < lbas ≤ stop - start`,
the zone is inserted into `open_zones` with its write pointer at `start`
(advanced by `lbas` when the allocation succeeded), `zones` grows to cover
`id`, and the new empty set mentions only other zones that were already
empty or lay beyond the old `zones.len()`. -/
theorem open_zone_some {fsm : FreeSpaceMap} {id : Nat}
    {start stop lbas : Nat} {res : Option (Nat × Nat)}
    {fsm₂ : FreeSpaceMap}
    (h : fsm.open_zone id start stop lbas = some (res, fsm₂)) :
    fsm.is_empty id = true ∧
    bmGet fsm.open_zones id = none ∧
    res = (if 0 < lbas ∧ lbas ≤ stop - start then some (id, start)
           else none) ∧
    fsm₂.open_zones = ozInsert fsm.open_zones id
      ⟨start, if 0 < lbas ∧ lbas ≤ stop - start then start + lbas
              else start⟩ ∧
    fsm₂.zones.length = max fsm.zones.length (id + 1) ∧
    (∀ zz ∈ fsm₂.empty_zones,
      (zz ∈ fsm.empty_zones ∨ fsm.zones.length ≤ zz) ∧ zz ≠ id) := by
  rw [open_zone] at h
  by_cases hemp : fsm.is_empty id = false
  · rw [if_pos hemp] at h
    cases h
  · rw [if_neg hemp] at h
    have hemp' : fsm.is_empty id = true := by
      cases hh : fsm.is_empty id with
      | false => exact absurd hh hemp
      | true => rfl
    by_cases hpad : ((List.range' fsm.zones.length
        (id + 1 - fsm.zones.length)).filter (fun z => z ≠ id)).any
          (fun z => fsm.empty_zones.contains z) = true
    · rw [if_pos hpad] at h
      cases h
    · rw [if_neg hpad] at h
      by_cases hopen : (bmGet fsm.open_zones id).isSome = true
      · rw [if_pos hopen] at h
        cases h
      · rw [if_neg hopen] at h
        have hopen' : bmGet fsm.open_zones id = none := by
          cases hh : bmGet fsm.open_zones id with
          | none => rfl
          | some _ => rw [hh] at hopen; simp at hopen
        simp only [Option.some.injEq, Prod.mk.injEq] at h
        obtain ⟨hres, hfsm⟩ := h
        refine ⟨hemp', hopen', hres.symm, by rw [← hfsm], ?_, ?_⟩
        · rw [← hfsm]
          simp only [List.length_set]
          by_cases hlen : fsm.zones.length ≤ id
          · simp only [if_pos hlen, List.length_append,
              List.length_replicate]
            omega
          · simp only [if_neg hlen]
            omega
        · intro zz hzz
          rw [← hfsm] at hzz
          simp only [List.mem_filter, List.mem_append,
            decide_eq_true_eq] at hzz
          obtain ⟨hmem, hne⟩ := hzz
          refine ⟨?_, hne⟩
          rcases hmem with hm1 | hm2
          · exact Or.inl hm1
          · obtain ⟨i, hi, hzi⟩ := List.mem_range'.mp hm2.1
            right
            omega

end FreeSpaceMap

/-- Decomposition of a successful `Cluster::write`: either the allocation
came from an already-open zone via `try_allocate`, or `try_allocate`
failed and the `find_empty` zone was opened with an immediate allocation
of the whole request at its start. -/
theorem clusterWrite_some_some {fsm : FreeSpaceMap}
    {zl : Nat → Nat × Nat} {buflen : Nat} {z : Nat} {lba : Nat}
    {fsm' : FreeSpaceMap}
    (h : clusterWrite fsm zl buflen = some (some (z, lba), fsm')) :
    fsm.try_allocate (buflen / BYTES_PER_LBA) = (some (z, lba), fsm') ∨
    ((fsm.try_allocate (buflen / BYTES_PER_LBA)).1 = none ∧
     fsm.find_empty = some z ∧ lba = (zl z).1 ∧
     0 < buflen / BYTES_PER_LBA ∧
     buflen / BYTES_PER_LBA ≤ (zl z).2 - (zl z).1 ∧
     fsm.open_zone z (zl z).1 (zl z).2 (buflen / BYTES_PER_LBA) =
       some (some (z, lba), fsm')) := by
  rcases hta : fsm.try_allocate (buflen / BYTES_PER_LBA) with ⟨r, f1⟩
  cases r with
  | some p =>
      obtain ⟨z₀, lba₀⟩ := p
      simp only [clusterWrite, hta, Option.some.injEq, Prod.mk.injEq] at h
      obtain ⟨⟨hz, hl⟩, hf⟩ := h
      subst hz; subst hl; subst hf
      exact Or.inl rfl
  | none =>
      cases hfe : fsm.find_empty with
      | none =>
          simp [clusterWrite, hta, hfe] at h
      | some zid =>
          cases hoz : fsm.open_zone zid (zl zid).1 (zl zid).2
              (buflen / BYTES_PER_LBA) with
          | none => simp [clusterWrite, hta, hfe, hoz] at h
          | some pr =>
              obtain ⟨res, fsm₂⟩ := pr
              cases res with
              | none => simp [clusterWrite, hta, hfe, hoz] at h
              | some q =>
                  obtain ⟨z₀, lba₀⟩ := q
                  simp only [clusterWrite, hta, hfe, hoz,
                    Option.some.injEq, Prod.mk.injEq] at h
                  obtain ⟨⟨hz, hl⟩, hf⟩ := h
                  have hzs := FreeSpaceMap.open_zone_some hoz
                  obtain ⟨-, -, hres, -, -, -⟩ := hzs
                  by_cases halloc : 0 < buflen / BYTES_PER_LBA ∧
                      buflen / BYTES_PER_LBA ≤ (zl zid).2 - (zl zid).1
                  · rw [if_pos halloc] at hres
                    have hinj := Option.some.inj hres
                    have hzz : z₀ = zid := congrArg Prod.fst hinj
                    have hlb : lba₀ = (zl zid).1 := congrArg Prod.snd hinj
                    subst hz; subst hl; subst hf; subst hzz
                    exact Or.inr ⟨rfl, rfl, hlb, halloc.1, halloc.2, hoz⟩
                  · rw [if_neg halloc] at hres
                    cases hres

/-! ## Claim C5 -/

/-- C5: the `Cluster::write` allocation policy.  With `space =
⌊buflen / BYTES_PER_LBA⌋:
(1) a successful `try_allocate` takes the lowest-numbered open zone whose
remaining tail (`avail`) holds the request, returns its current write
pointer, and advances that pointer by `space`;
(2) `find_empty` returns the smallest explicitly empty zone id, else the
first id past `zones.len()` when that is below `total_zones`;
(3) `find_empty` fails exactly when there is no explicitly empty zone and
`zones.len()` has reached `total_zones`;
(4) when no open zone fits and no empty zone exists, `write` fails with
`NoSpace` leaving the map unchanged;
(5) any successful `write` returns the pre-advance write pointer of the
chosen zone — the zone was already open, or it is the `find_empty` zone
and the returned LBA is its first LBA — and afterwards the chosen zone's
write pointer is `lba + space`. -/
theorem C5_write_allocation_policy (fsm : FreeSpaceMap)
    (zl : Nat → Nat × Nat) (buflen : Nat)
    (hopen : fsm.open_zones.Pairwise (fun p q => p.1 < q.1))
    (hempty : fsm.empty_zones.Pairwise (· < ·)) :
    (∀ z lba fsm',
      fsm.try_allocate (buflen / BYTES_PER_LBA) = (some (z, lba), fsm') →
      ∃ oz, bmGet fsm.open_zones z = some oz ∧
        buflen / BYTES_PER_LBA ≤ fsm.avail z oz ∧
        (∀ q ∈ fsm.open_zones, q.1 < z →
          ¬ buflen / BYTES_PER_LBA ≤ fsm.avail q.1 q.2) ∧
        lba = oz.write_pointer ∧
        bmGet fsm'.open_zones z =
          some ⟨oz.start, oz.write_pointer + buflen / BYTES_PER_LBA⟩) ∧
    (∀ zid, fsm.find_empty = some zid →
      (zid ∈ fsm.empty_zones ∧ ∀ z ∈ fsm.empty_zones, zid ≤ z) ∨
      (fsm.empty_zones = [] ∧ zid = fsm.zones.length ∧
        fsm.zones.length < fsm.total_zones)) ∧
    (fsm.find_empty = none →
      fsm.empty_zones = [] ∧ fsm.total_zones ≤ fsm.zones.length) ∧
    ((fsm.try_allocate (buflen / BYTES_PER_LBA)).1 = none →
      fsm.find_empty = none →
      clusterWrite fsm zl buflen = some (none, fsm)) ∧
    (∀ z lba fsm', clusterWrite fsm zl buflen = some (some (z, lba), fsm') →
      ∃ oz', bmGet fsm'.open_zones z = some oz' ∧
        oz'.write_pointer = lba + buflen / BYTES_PER_LBA ∧
        ((∃ oz, bmGet fsm.open_zones z = some oz ∧
            lba = oz.write_pointer) ∨
         (bmGet fsm.open_zones z = none ∧ fsm.find_empty = some z ∧
            lba = (zl z).1))) := by
  refine ⟨?_, fun zid h => FreeSpaceMap.find_empty_some hempty h,
    fun h => FreeSpaceMap.find_empty_none h, ?_, ?_⟩
  · intro z lba fsm' h
    obtain ⟨oz, hget, hfit, hlba, hleast, hfsm⟩ :=
      FreeSpaceMap.try_allocate_some hopen h
    refine ⟨oz, hget, hfit, hleast, hlba, ?_⟩
    rw [hfsm]
    simp only
    rw [bmGet_ozAdvance_self, hget]
    rfl
  · intro hta hfe
    rcases hta' : fsm.try_allocate (buflen / BYTES_PER_LBA) with ⟨r, f1⟩
    rw [hta'] at hta
    simp only at hta
    subst hta
    simp [clusterWrite, hta', hfe]
  · intro z lba fsm' h
    rcases clusterWrite_some_some h with hcase | hcase
    · obtain ⟨oz, hget, hfit, hlba, hleast, hfsm⟩ :=
        FreeSpaceMap.try_allocate_some hopen hcase
      refine ⟨⟨oz.start, oz.write_pointer + buflen / BYTES_PER_LBA⟩, ?_, ?_,
        Or.inl ⟨oz, hget, hlba⟩⟩
      · rw [hfsm]
        simp only
        rw [bmGet_ozAdvance_self, hget]
        rfl
      · simp [hlba]
    · obtain ⟨-, hfe, hlba, hpos, hle, hoz⟩ := hcase
      have hzs := FreeSpaceMap.open_zone_some hoz
      obtain ⟨-, hnone, -, hoz2, -, -⟩ := hzs
      have halloc : 0 < buflen / BYTES_PER_LBA ∧
          buflen / BYTES_PER_LBA ≤ (zl z).2 - (zl z).1 := ⟨hpos, hle⟩
      rw [if_pos halloc] at hoz2
      refine ⟨⟨(zl z).1, (zl z).1 + buflen / BYTES_PER_LBA⟩, ?_, ?_,
        Or.inr ⟨hnone, hfe, hlba⟩⟩
      · rw [hoz2]
        exact bmGet_ozInsert_self _ _ _
      · simp [hlba]

/-- A map with two open zones: zone 0 with 10 free LBAs, zone 1 with
1000. -/
def fsmC5 : FreeSpaceMap :=
  { zones := [⟨0, 10⟩, ⟨0, 1000⟩], empty_zones := [],
    open_zones := [(0, ⟨0, 0⟩), (1, ⟨10, 10⟩)], total_zones := 32768 }

/-- `fsmC5` after allocating 64 LBAs: zone 0 was too small, zone 1's
write pointer advanced from 10 to 74. -/
def fsmC5' : FreeSpaceMap :=
  { zones := [⟨0, 10⟩, ⟨0, 1000⟩], empty_zones := [],
    open_zones := [(0, ⟨0, 0⟩), (1, ⟨10, 74⟩)], total_zones := 32768 }

/-- Witness for C5: a 64-LBA request skips the too-small zone 0, is
placed at zone 1's write pointer, and advances it by 64. -/
theorem C5_write_allocation_policy_witness :
    bmGet fsmC5'.open_zones 1 = some ⟨10, 74⟩ := by
  obtain ⟨oz, h1, h2, h3, h4, h5⟩ :=
    (C5_write_allocation_policy fsmC5 (fun _ => (0, 1)) 262144
      (by decide) (by decide)).1 1 10 fsmC5' (by decide)
  have hoz : oz = ⟨10, 10⟩ := by
    have hh : bmGet fsmC5.open_zones 1 = some ⟨10, 10⟩ := by decide
    rw [hh] at h1
    exact (Option.some.inj h1).symm
  rw [hoz] at h5
  simpa using h5

/-! ## Claim C4 -/

/-- A zone is Closed: below the high-water mark, not explicitly empty and
not open.  This is the state of every zone surfaced by
`list_closed_zones` for cleaning. -/
def isClosedZone (fsm : FreeSpaceMap) (z : Nat) : Bool :=
  decide (z < fsm.zones.length) && !(fsm.empty_zones.contains z) &&
    (bmGet fsm.open_zones z).isNone

/-- The vdev's `zone_limits` assigns every zone a well-formed LBA range,
and the ranges of distinct zones are disjoint (ascending). -/
def ZlDisjoint (zl : Nat → Nat × Nat) : Prop :=
  (∀ a, (zl a).1 ≤ (zl a).2) ∧ (∀ a b, a < b → (zl a).2 ≤ (zl b).1)

/-- The free-space map agrees with the vdev's zone limits: every open
zone starts at its zone's first LBA, its write pointer is inside the
zone, and the recorded `total_blocks` is the zone's LBA count. -/
def FsmZlConsistent (fsm : FreeSpaceMap) (zl : Nat → Nat × Nat) :
    Prop :=
  ∀ p ∈ fsm.open_zones,
    p.2.start = (zl p.1).1 ∧
    p.2.start ≤ p.2.write_pointer ∧
    p.2.write_pointer - p.2.start ≤
      (fsm.zones.getD p.1 default).total_blocks ∧
    (fsm.zones.getD p.1 default).total_blocks = (zl p.1).2 - (zl p.1).1

/-- C4: while zone `z` is Closed (as every zone being cleaned is — the
cleaner draws it from `list_closed_zones`, and the `free` calls issued by
`move_record`'s `delete_direct` keep it Closed), every record rewrite
performed during `clean_zone` allocates its destination through
`Cluster::write`, which places it in a different zone and at an LBA
outside `z`'s LBA range, and leaves `z` Closed. -/
theorem C4_move_record_dest_outside_zone (fsm : FreeSpaceMap)
    (zl : Nat → Nat × Nat) (buflen : Nat) (z : Nat)
    (hcons : FsmZlConsistent fsm zl) (hzl : ZlDisjoint zl)
    (hclosed : isClosedZone fsm z = true)
    (hbuf : BYTES_PER_LBA ≤ buflen) :
    (∀ z' lba fsm',
      clusterWrite fsm zl buflen = some (some (z', lba), fsm') →
      z' ≠ z ∧
      ((zl z').1 ≤ lba ∧ lba < (zl z').2) ∧
      ¬ ((zl z).1 ≤ lba ∧ lba < (zl z).2) ∧
      isClosedZone fsm' z = true) ∧
    (∀ zid len fsm', fsm.free zid len = some fsm' →
      isClosedZone fsm' z = true) := by
  have hcl := hclosed
  simp only [isClosedZone, Bool.and_eq_true, decide_eq_true_eq,
    Bool.not_eq_true', Option.isNone_iff_eq_none] at hcl
  obtain ⟨⟨hzlen, hzcont⟩, hzopen⟩ := hcl
  have hzempty : z ∉ fsm.empty_zones := by
    intro hmem
    have : fsm.empty_zones.contains z = true := by simpa using hmem
    rw [this] at hzcont
    cases hzcont
  have hspace : 0 < buflen / BYTES_PER_LBA :=
    Nat.div_pos hbuf (by decide)
  constructor
  · intro z' lba fsm' h
    have houtside : ∀ s e : Nat, (zl z').1 ≤ s → e ≤ (zl z').2 →
        z' ≠ z → s ≤ lba → lba < e →
        ¬ ((zl z).1 ≤ lba ∧ lba < (zl z).2) := by
      intro s e hs he hne hsl hle hin
      rcases Nat.lt_or_ge z' z with hlt | hge
      · have := hzl.2 z' z hlt
        omega
      · have hgt : z < z' := lt_of_le_of_ne hge (fun hh => hne hh.symm)
        have := hzl.2 z z' hgt
        omega
    rcases clusterWrite_some_some h with hcase | hcase
    · obtain ⟨oz, hmem, hfit, hlba, hfsm⟩ :=
        FreeSpaceMap.try_allocate_some_mem hcase
      have hne : z' ≠ z := by
        intro hh
        subst hh
        exact bmGet_ne_none_of_mem hmem hzopen
      obtain ⟨hst, hwp, hwpt, htot⟩ := hcons _ hmem
      simp only at hst hwp hwpt htot
      have hfit' : buflen / BYTES_PER_LBA ≤
          (fsm.zones.getD z' default).total_blocks -
            (oz.write_pointer - oz.start) := hfit
      have hse := hzl.1 z'
      have hrange : (zl z').1 ≤ lba ∧ lba < (zl z').2 := by
        subst hlba
        omega
      refine ⟨hne, hrange,
        houtside (zl z').1 (zl z').2 le_rfl le_rfl hne hrange.1 hrange.2,
        ?_⟩
      rw [hfsm]
      simp only [isClosedZone]
      have hadv : bmGet (ozAdvance fsm.open_zones z'
          (buflen / BYTES_PER_LBA)) z = none := by
        rw [bmGet_ozAdvance_ne _ _ _ _ hne.symm]
        exact hzopen
      simp [hadv, hzlen, hzempty]
    · obtain ⟨-, hfe, hlba, hpos, hle, hoz⟩ := hcase
      have hzs := FreeSpaceMap.open_zone_some hoz
      obtain ⟨hemp', hnone, -, hoz2, hlen2, hempty2⟩ := hzs
      have hne : z' ≠ z := by
        intro hh
        rw [FreeSpaceMap.is_empty] at hemp'
        rcases Bool.or_eq_true _ _ |>.mp hemp' with h1 | h2
        · have hge : fsm.zones.length ≤ z' := by simpa using h1
          omega
        · exact hzempty (hh ▸ (by simpa using h2 : z' ∈ fsm.empty_zones))
      have hse := hzl.1 z'
      have hrange : (zl z').1 ≤ lba ∧ lba < (zl z').2 := by
        subst hlba
        omega
      refine ⟨hne, hrange,
        houtside (zl z').1 (zl z').2 le_rfl le_rfl hne hrange.1 hrange.2,
        ?_⟩
      simp only [isClosedZone]
      have hget2 : bmGet fsm'.open_zones z = none := by
        rw [hoz2, bmGet_ozInsert_ne _ _ _ _ hne.symm]
        exact hzopen
      have hmem2 : z ∉ fsm'.empty_zones := by
        intro hmem
        rcases hempty2 z hmem with ⟨hor, -⟩
        rcases hor with hm | hm
        · exact hzempty hm
        · omega
      have hlen2' : z < fsm'.zones.length := by
        rw [hlen2]
        omega
      simp [hget2, hmem2, hlen2']
  · intro zid len fsm' h
    have hzones : fsm'.zones.length = fsm.zones.length ∧
        fsm'.empty_zones = fsm.empty_zones ∧
        fsm'.open_zones = fsm.open_zones := by
      rw [FreeSpaceMap.free] at h
      simp only [] at h
      repeat' split at h
      all_goals cases h
      all_goals simp [List.length_set]
    simp only [isClosedZone, hzones.1, hzones.2.1, hzones.2.2]
    exact hclosed

/-- The regression scenario of the `move_last_record` test, mid-clean:
zones hold 4 LBAs; zone 0 (being cleaned) is Closed with 3 of its 4
records already moved and freed; zone 1 is open and full.  The next
`move_record` must open a new zone for the last record rather than reuse
zone 0. -/
def fsmC4 : FreeSpaceMap :=
  { zones := [⟨3, 4⟩, ⟨0, 4⟩], empty_zones := [],
    open_zones := [(1, ⟨4, 8⟩)], total_zones := 4 }

/-- Zone limits of the regression scenario: zone `z` spans LBAs
`[4z, 4z + 4)`. -/
def zlC4 : Nat → Nat × Nat := fun zid => (4 * zid, 4 * zid + 4)

/-- `fsmC4` after the last moved record's write: zone 2 was opened and
the record landed at LBA 8, outside cleaned zone 0. -/
def fsmC4' : FreeSpaceMap :=
  { zones := [⟨3, 4⟩, ⟨0, 4⟩, ⟨0, 4⟩], empty_zones := [],
    open_zones := [(1, ⟨4, 8⟩), (2, ⟨8, 9⟩)], total_zones := 4 }

/-- Witness for C4: in the `move_last_record` scenario the last moved
record is placed in zone 2 at LBA 8 — not back into cleaned zone 0,
whose LBA range it avoids — and zone 0 stays Closed. -/
theorem C4_move_record_dest_outside_zone_witness :
    2 ≠ 0 ∧ ¬ ((zlC4 0).1 ≤ 8 ∧ 8 < (zlC4 0).2) ∧
      isClosedZone fsmC4' 0 = true := by
  have hzl : ZlDisjoint zlC4 := by
    constructor
    · intro a
      simp only [zlC4]
      omega
    · intro a b hab
      simp only [zlC4]
      omega
  obtain ⟨hne, hrange, hout, hcl⟩ :=
    (C4_move_record_dest_outside_zone fsmC4 zlC4 4096 0
      (by unfold FsmZlConsistent; decide) hzl
      (by decide) (by decide)).1 2 8 fsmC4' (by decide)
  exact ⟨hne, hout, hcl⟩

/-! ## The DDML read path (`src/common/ddml.rs`)

The pool below the DDML is modelled as a function giving the bytes read
for a PBA and a byte count, and the 64-bit MetroHash checksum as an
abstract function on byte buffers (the hash lives in an external crate).
An error result is the `ChecksumFailure` (`EIO`) of `DDML::read`. -/

/-- `DDML::read` (ddml.rs:194-221): read `drp.asize()` LBAs from the
pool, truncate the buffer to `drp.csize` bytes, hash the truncated bytes
and compare with `drp.checksum`; produce the buffer on a match, `EIO` on
a mismatch. -/
def ddmlRead (hash : List Nat → Nat) (pool : PBA → Nat → List Nat)
    (drp : DRP) : Except Unit (List Nat) :=
  let raw := pool drp.pba (drp.asize * BYTES_PER_LBA)
  let db := raw.take drp.csize
  if hash db = drp.checksum then .ok db else .error ()

/-- `DDML::get` (ddml.rs:120-139): serve from the cache when resident;
otherwise `read`, and insert into the cache only on success.  Returns the
result together with the new cache. -/
def ddmlGet (hash : List Nat → Nat) (pool : PBA → Nat → List Nat)
    (cache : List (PBA × List Nat)) (drp : DRP) :
    Except Unit (List Nat) × List (PBA × List Nat) :=
  match bmGet cache drp.pba with
  | some db => (.ok db, cache)
  | none =>
      match ddmlRead hash pool drp with
      | .ok db => (.ok db, bmInsert cache drp.pba db)
      | .error e => (.error e, cache)

/-! ## Claim C7 -/

/-- C7: on a cache miss, a DDML read fetches `drp.asize()` =
`⌈drp.csize / BYTES_PER_LBA⌉` LBAs from the pool and truncates them to
`drp.csize` bytes; when the checksum of those bytes differs from
`drp.checksum` the operation fails with `ChecksumFailure` and the cache
is unchanged; when it matches the truncated bytes are returned and
inserted into the cache. -/
theorem C7_checksum_mismatch_no_cache (hash : List Nat → Nat)
    (pool : PBA → Nat → List Nat) (cache : List (PBA × List Nat))
    (drp : DRP) (hmiss : bmGet cache drp.pba = none) :
    drp.asize = (drp.csize + BYTES_PER_LBA - 1) / BYTES_PER_LBA ∧
    ((pool drp.pba (drp.asize * BYTES_PER_LBA)).take drp.csize).length =
      min drp.csize (pool drp.pba (drp.asize * BYTES_PER_LBA)).length ∧
    (hash ((pool drp.pba (drp.asize * BYTES_PER_LBA)).take drp.csize) ≠
        drp.checksum →
      ddmlGet hash pool cache drp = (.error (), cache)) ∧
    (hash ((pool drp.pba (drp.asize * BYTES_PER_LBA)).take drp.csize) =
        drp.checksum →
      ddmlGet hash pool cache drp =
        (.ok ((pool drp.pba (drp.asize * BYTES_PER_LBA)).take drp.csize),
         bmInsert cache drp.pba
           ((pool drp.pba (drp.asize * BYTES_PER_LBA)).take
             drp.csize))) := by
  refine ⟨rfl, List.length_take _ _, ?_, ?_⟩
  · intro hne
    simp only [ddmlGet, hmiss, ddmlRead, if_neg hne]
  · intro heq
    simp only [ddmlGet, hmiss, ddmlRead, if_pos heq]

/-- A mock hash for the witness: the sum of the bytes. -/
def sumHash (l : List Nat) : Nat := l.sum

/-- A mock pool for the witness: every byte reads back as 7. -/
def constPool (_ : PBA) (n : Nat) : List Nat := List.replicate n 7

/-- A record pointer whose checksum matches `sumHash` over one 2-byte
record stored by `constPool` (7 + 7 = 14). -/
def drpGood : DRP := ⟨⟨0, 5⟩, false, 2, 2, 14⟩

/-- The same record pointer with a corrupted checksum. -/
def drpBad : DRP := ⟨⟨0, 5⟩, false, 2, 2, 15⟩

/-- Witness for C7: with the mock pool and hash, the good checksum is
returned and cached, and the corrupted checksum fails with the cache
unchanged. -/
theorem C7_checksum_mismatch_no_cache_witness :
    ddmlGet sumHash constPool [] drpBad = (.error (), []) ∧
    ddmlGet sumHash constPool [] drpGood = (.ok [7, 7], [(⟨0, 5⟩, [7, 7])]) := by
  constructor
  · exact (C7_checksum_mismatch_no_cache sumHash constPool [] drpBad
      rfl).2.2.1 (by decide)
  · have h := (C7_checksum_mismatch_no_cache sumHash constPool [] drpGood
      rfl).2.2.2 (by decide)
    rw [h]
    rfl

/-! ## The COW B+-tree (`src/common/tree.rs`)

In-memory tree nodes over `Nat` keys and values (the engine is generic;
`K::min_value()` is 0).  A leaf's `BTreeMap<K, V>` is embedded as a
sorted association list, an interior node's `Vec<IntElem>` as a list of
`(key, child)` pairs.  The write-locked descents of `insert`/`remove`
become functional recursion; the descent depth is bounded by the tree
height, supplied as fuel (`none` on exhaustion never happens for trees
whose recorded height matches their depth). -/

inductive BNode where
  | leaf (items : List (Nat × Nat)) : BNode
  | int (children : List (Nat × BNode)) : BNode

/-- `Node::len`: number of items or children. -/
def BNode.len : BNode → Nat
  | .leaf items => items.length
  | .int children => children.length

/-- `Node::key`: the node's lower-bound key (first item / first child;
the source `unwrap`s and the empty case is unreachable). -/
def BNode.nkey : BNode → Nat
  | .leaf items => ((items.head?).map (fun p => p.1)).getD 0
  | .int children => ((children.head?).map (fun p => p.1)).getD 0

/-- `IntNode::position`: index of the rightmost child whose key is ≤
the search key (`binary_search_by_key(..).unwrap_or_else(|k| k - 1)`). -/
def position (children : List (Nat × BNode)) (k : Nat) : Nat :=
  (children.filter (fun c => c.1 ≤ k)).length - 1

/-- `BTreeMap::insert` on a sorted association list, replacing on an
equal key (the displaced value is recovered with `bmGet`). -/
def btmInsert : List (Nat × Nat) → Nat → Nat → List (Nat × Nat)
  | [], k, v => [(k, v)]
  | (k', v') :: t, k, v =>
      if k < k' then (k, v) :: (k', v') :: t
      else if k = k' then (k, v) :: t
      else (k', v') :: btmInsert t k v

/-- `Node::split`: keep the larger left half (`div_roundup(len, 2)`
entries), return the raised key — the right half's first key — and the
two halves. -/
def nodeSplit : BNode → Nat × BNode × BNode
  | .leaf items =>
      let half := (items.length + 1) / 2
      match items.drop half with
      | [] => (0, .leaf items, .leaf [])
      | c :: t => (c.1, .leaf (items.take half), .leaf (c :: t))
  | .int children =>
      let half := (children.length + 1) / 2
      match children.drop half with
      | [] => (0, .int children, .int [])
      | c :: t => (c.1, .int (children.take half), .int (c :: t))

/-- `Node::merge`: append the right sibling's contents (siblings always
have the same kind; the mismatched case is unreachable). -/
def nodeMerge : BNode → BNode → BNode
  | .leaf a, .leaf b => .leaf (a ++ b)
  | .int a, .int b => .int (a ++ b)
  | a, _ => a

/-- `Node::take_low_keys`: move the right sibling's lowest
`(donor.len - receiver.len) / 2` entries into the child. -/
def takeLowKeys : BNode → BNode → BNode × BNode
  | .leaf a, .leaf b =>
      let n := (b.length - a.length) / 2
      (.leaf (a ++ b.take n), .leaf (b.drop n))
  | .int a, .int b =>
      let n := (b.length - a.length) / 2
      (.int (a ++ b.take n), .int (b.drop n))
  | a, b => (a, b)

/-- `Node::take_high_keys`: move the left sibling's highest
`(donor.len - receiver.len) / 2` entries into the child. -/
def takeHighKeys : BNode → BNode → BNode × BNode
  | .leaf a, .leaf b =>
      let n := (b.length - a.length) / 2
      (.leaf (b.drop (b.length - n) ++ a), .leaf (b.take (b.length - n)))
  | .int a, .int b =>
      let n := (b.length - a.length) / 2
      (.int (b.drop (b.length - n) ++ a), .int (b.take (b.length - n)))
  | a, b => (a, b)

/-- The tree and its bookkeeping (`struct Inner`): recorded height and
the fanout limits. -/
structure BTree where
  height : Nat
  min_fanout : Nat
  max_fanout : Nat
  root : BNode

/-- `Tree::insert_no_split`/`insert_int`: descend, pre-splitting a full
child (`l >= max_fanout`) by linking the split-off right half after it
in the parent and re-descending from the parent, and insert or replace
at the leaf. -/
def insertNoSplit (maxF : Nat) : Nat → BNode → Nat → Nat →
    Option (BNode × Option Nat)
  | 0, _, _, _ => none
  | _ + 1, .leaf items, k, v =>
      some (.leaf (btmInsert items k v), bmGet items k)
  | fuel + 1, .int children, k, v =>
      let i := position children k
      match children.get? i with
      | none => none
      | some (ck, child) =>
          if maxF ≤ child.len then
            let s := nodeSplit child
            let children' :=
              (children.set i (ck, s.2.1)).insertIdx (i + 1) (s.1, s.2.2)
            insertNoSplit maxF fuel (.int children') k v
          else
            match insertNoSplit maxF fuel child k v with
            | none => none
            | some (child', old) =>
                some (.int (children.set i (ck, child')), old)

/-- `Tree::insert`/`insert_locked`: when the root is full, split it,
allocate a new interior root whose two children are the old root —
keyed by `K::min_value() = 0` — and the split-off right half, bumping
the height; then insert below. -/
def treeInsert (t : BTree) (k v : Nat) : Option (BTree × Option Nat) :=
  let fuel := 2 * t.height + 2
  if t.max_fanout ≤ t.root.len then
    let s := nodeSplit t.root
    let newRoot := BNode.int [(0, s.2.1), (s.1, s.2.2)]
    match insertNoSplit t.max_fanout fuel newRoot k v with
    | none => none
    | some (root', old) =>
        some ({ t with root := root', height := t.height + 1 }, old)
  else
    match insertNoSplit t.max_fanout fuel t.root k v with
    | none => none
    | some (root', old) => some ({ t with root := root' }, old)

/-- `Tree::remove_no_fix`/`remove_int`: descend; a chosen child with
`len <= min_fanout` (`underflow`) is first merged with its right
sibling when the result fits in `max_fanout`, else steals the sibling's
low keys; the rightmost child uses the left sibling symmetrically,
merging into it or stealing its high keys; then re-descend from the
parent.  At the leaf, remove.  A fix with no sibling at all is the
source's index-underflow panic, embedded as `none`. -/
def removeNoFix (minF maxF : Nat) : Nat → BNode → Nat →
    Option (BNode × Option Nat)
  | 0, _, _ => none
  | _ + 1, .leaf items, k => some (.leaf (bmErase items k), bmGet items k)
  | fuel + 1, .int children, k =>
      let i := position children k
      match children.get? i with
      | none => none
      | some (ck, child) =>
          if child.len ≤ minF then
            if i < children.length - 1 then
              match children.get? (i + 1) with
              | none => none
              | some (_, sib) =>
                  if child.len + sib.len ≤ maxF then
                    let children' := ((children.set i
                      (ck, nodeMerge child sib)).eraseIdx (i + 1))
                    removeNoFix minF maxF fuel (.int children') k
                  else
                    let p := takeLowKeys child sib
                    let children' := ((children.set i
                      (ck, p.1)).set (i + 1) (p.2.nkey, p.2))
                    removeNoFix minF maxF fuel (.int children') k
            else
              match i with
              | 0 => none
              | j + 1 =>
                  match children.get? j with
                  | none => none
                  | some (sk, sib) =>
                      if sib.len + child.len ≤ maxF then
                        let children' := ((children.set j
                          (sk, nodeMerge sib child)).eraseIdx (j + 1))
                        removeNoFix minF maxF fuel (.int children') k
                      else
                        let p := takeHighKeys child sib
                        let children' := ((children.set j
                          (sk, p.2)).set (j + 1) (p.1.nkey, p.1))
                        removeNoFix minF maxF fuel (.int children') k
          else
            match removeNoFix minF maxF fuel child k with
            | none => none
            | some (child', old) =>
                some (.int (children.set i (ck, child')), old)

/-- `Tree::remove`/`remove_locked`: when the root is an interior node
with a single child, collapse the root into that child — decreasing the
height by 1 — *before* descending; then remove below. -/
def treeRemove (t : BTree) (k : Nat) : Option (BTree × Option Nat) :=
  let fuel := 2 * t.height + 2
  match t.root with
  | .int [(_, child)] =>
      match removeNoFix t.min_fanout t.max_fanout fuel child k with
      | none => none
      | some (root', old) =>
          some ({ t with root := root', height := t.height - 1 }, old)
  | root =>
      match removeNoFix t.min_fanout t.max_fanout fuel root k with
      | none => none
      | some (root', old) => some ({ t with root := root' }, old)

/-! Unfolding equations for the fuel-indexed descent, and the append
lemmas about sorted-list insertion used to reassemble a split root. -/

theorem insertNoSplit_leaf_eq (maxF fuel : Nat) (items : List (Nat × Nat))
    (k v : Nat) :
    insertNoSplit maxF (fuel + 1) (.leaf items) k v =
      some (.leaf (btmInsert items k v), bmGet items k) := rfl

theorem insertNoSplit_int_eq (maxF fuel : Nat)
    (children : List (Nat × BNode)) (k v : Nat) :
    insertNoSplit maxF (fuel + 1) (.int children) k v =
      (match children.get? (position children k) with
       | none => none
       | some (ck, child) =>
           if maxF ≤ child.len then
             let s := nodeSplit child
             insertNoSplit maxF fuel
               (.int ((children.set (position children k)
                 (ck, s.2.1)).insertIdx (position children k + 1)
                 (s.1, s.2.2))) k v
           else
             match insertNoSplit maxF fuel child k v with
             | none => none
             | some (child', old) =>
                 some (.int (children.set (position children k)
                   (ck, child')), old)) := rfl

theorem btmInsert_append_right {l r : List (Nat × Nat)} {k v : Nat}
    (h : ∀ p ∈ r, k < p.1) :
    btmInsert l k v ++ r = btmInsert (l ++ r) k v := by
  induction l with
  | nil =>
      cases r with
      | nil => rfl
      | cons p t =>
          simp only [List.nil_append, btmInsert]
          rw [if_pos (h p (List.mem_cons_self _ _))]
          rfl
  | cons p t ih =>
      simp only [List.cons_append, btmInsert]
      by_cases h1 : k < p.1
      · simp [h1]
      · by_cases h2 : k = p.1
        · simp [h1, h2]
        · simp [h1, h2]
          exact ih

theorem btmInsert_append_left {l r : List (Nat × Nat)} {k v : Nat}
    (h : ∀ p ∈ l, p.1 < k) :
    l ++ btmInsert r k v = btmInsert (l ++ r) k v := by
  induction l with
  | nil => rfl
  | cons p t ih =>
      have hp := h p (List.mem_cons_self _ _)
      simp only [List.cons_append, btmInsert]
      rw [if_neg (by omega), if_neg (by omega)]
      simp only [List.append_eq]
      rw [← ih (fun q hq => h q (List.mem_cons_of_mem _ hq))]

theorem bmGet_append_left_none {l r : List (Nat × Nat)} {k : Nat}
    (h : ∀ p ∈ l, p.1 ≠ k) : bmGet (l ++ r) k = bmGet r k := by
  induction l with
  | nil => rfl
  | cons p t ih =>
      simp only [List.cons_append, bmGet]
      rw [if_neg (h p (List.mem_cons_self _ _))]
      exact ih (fun q hq => h q (List.mem_cons_of_mem _ hq))

theorem bmGet_append_right_none {l r : List (Nat × Nat)} {k : Nat}
    (h : ∀ p ∈ r, p.1 ≠ k) : bmGet (l ++ r) k = bmGet l k := by
  induction l with
  | nil => exact bmGet_eq_none_of_not_mem h
  | cons p t ih =>
      simp only [List.cons_append, bmGet]
      by_cases hpk : p.1 = k
      · rw [if_pos hpk, if_pos hpk]
      · rw [if_neg hpk, if_neg hpk]
        exact ih

/-- C8: inserting any key into a tree of height 1 whose root leaf holds
`max_fanout` items splits the root: the resulting tree has height 2 and
its root is a single interior node with exactly two leaf children whose
concatenated contents are the old items with the new key inserted
(replacing on an equal key, as `BTreeMap::insert` does); the returned
previous value is the leaf's binding of the key. -/
theorem C8_root_split_insert (t : BTree) (items : List (Nat × Nat))
    (k v : Nat)
    (hroot : t.root = .leaf items) (hh : t.height = 1)
    (hfull : items.length = t.max_fanout) (hmax : 2 ≤ t.max_fanout)
    (hsorted : items.Pairwise (fun a b => a.1 < b.1)) :
    ∃ t' nk l r,
      treeInsert t k v = some (t', bmGet items k) ∧
      t'.height = 2 ∧
      t'.root = BNode.int [(0, .leaf l), (nk, .leaf r)] ∧
      l ++ r = btmInsert items k v := by
  have hlen2 : 2 ≤ items.length := by omega
  set half := (items.length + 1) / 2 with hhalf
  have hhalf1 : 1 ≤ half := by omega
  have hhalflt : half < items.length := by omega
  obtain ⟨c, tl, hd⟩ : ∃ c tl, items.drop half = c :: tl := by
    have hlend : (items.drop half).length = items.length - half :=
      List.length_drop _ _
    cases hdrop : items.drop half with
    | nil => rw [hdrop] at hlend; simp at hlend; omega
    | cons c tl => exact ⟨c, tl, rfl⟩
  have hta := List.take_append_drop half items
  have hsorted' : ((items.take half) ++ (items.drop half)).Pairwise
      (fun a b => a.1 < b.1) := by rw [hta]; exact hsorted
  rw [List.pairwise_append] at hsorted'
  obtain ⟨hsl, hsr, hcross⟩ := hsorted'
  have hcmem : c ∈ items.drop half := by
    rw [hd]; exact List.mem_cons_self _ _
  have htake_lt : ∀ p ∈ items.take half, p.1 < c.1 :=
    fun p hp => hcross p hp c hcmem
  have hdrop_ge : ∀ p ∈ items.drop half, c.1 ≤ p.1 := by
    intro p hp
    rw [hd] at hp hsr
    rcases List.mem_cons.mp hp with h | h
    · rw [h]
    · exact le_of_lt ((List.pairwise_cons.mp hsr).1 p h)
  have hdl : tl.length + 1 = items.length - half := by
    have hlend : (items.drop half).length = items.length - half :=
      List.length_drop _ _
    rw [hd] at hlend
    simpa using hlend
  have htl : (items.take half).length = half := by
    rw [List.length_take]; omega
  have hsplit : nodeSplit (BNode.leaf items) =
      (c.1, BNode.leaf (items.take half), BNode.leaf (c :: tl)) := by
    simp only [nodeSplit]
    rw [← hhalf, hd]
  by_cases hk : c.1 ≤ k
  · -- the key goes into the split-off right half
    refine ⟨{ t with
        root := BNode.int [(0, BNode.leaf (items.take half)),
          (c.1, BNode.leaf (btmInsert (c :: tl) k v))],
        height := t.height + 1 },
      c.1, items.take half, btmInsert (c :: tl) k v, ?_, by simp [hh], rfl, ?_⟩
    · have hbg : bmGet items k = bmGet (c :: tl) k := by
        conv_lhs => rw [← hta]
        rw [hd] at hta ⊢
        exact bmGet_append_left_none
          (fun p hp => by have := htake_lt p hp; omega)
      rw [hbg]
      simp only [treeInsert, hroot]
      rw [if_pos (by simp [BNode.len, hfull])]
      rw [hsplit]
      rw [show 2 * t.height + 2 = (2 * t.height + 1) + 1 from rfl,
        insertNoSplit_int_eq]
      have hpos : position [(0, BNode.leaf (items.take half)),
          (c.1, BNode.leaf (c :: tl))] k = 1 := by
        simp [position, hk]
      rw [hpos]
      simp only [List.get?]
      rw [if_neg (show ¬ t.max_fanout ≤ (BNode.leaf (c :: tl)).len by
        simp only [BNode.len, List.length_cons]; omega)]
      rw [insertNoSplit_leaf_eq]
      simp [List.set]
    · calc items.take half ++ btmInsert (c :: tl) k v
          = btmInsert (items.take half ++ (c :: tl)) k v :=
            btmInsert_append_left
              (fun p hp => lt_of_lt_of_le (htake_lt p hp) hk)
        _ = btmInsert items k v := by rw [← hd, hta]
  · -- the key stays in the left half
    refine ⟨{ t with
        root := BNode.int [(0, BNode.leaf (btmInsert (items.take half) k v)),
          (c.1, BNode.leaf (c :: tl))],
        height := t.height + 1 },
      c.1, btmInsert (items.take half) k v, c :: tl, ?_, by simp [hh], rfl, ?_⟩
    · have hbg : bmGet items k = bmGet (items.take half) k := by
        conv_lhs => rw [← hta]
        exact bmGet_append_right_none
          (fun p hp => by have := hdrop_ge p hp; omega)
      rw [hbg]
      simp only [treeInsert, hroot]
      rw [if_pos (by simp [BNode.len, hfull])]
      rw [hsplit]
      rw [show 2 * t.height + 2 = (2 * t.height + 1) + 1 from rfl,
        insertNoSplit_int_eq]
      have hpos : position [(0, BNode.leaf (items.take half)),
          (c.1, BNode.leaf (c :: tl))] k = 0 := by
        simp [position, hk]
      rw [hpos]
      simp only [List.get?]
      rw [if_neg (show ¬ t.max_fanout ≤ (BNode.leaf (items.take half)).len by
        simp only [BNode.len, htl]; omega)]
      rw [insertNoSplit_leaf_eq]
      simp [List.set]
    · calc btmInsert (items.take half) k v ++ (c :: tl)
          = btmInsert (items.take half ++ (c :: tl)) k v :=
            btmInsert_append_right (fun p hp => by
              have := hdrop_ge p (by rw [hd]; exact hp); omega)
        _ = btmInsert items k v := by rw [← hd, hta]

/-- A height-1 tree whose root leaf is full at `max_fanout = 4`. -/
def tC8 : BTree := ⟨1, 2, 4, .leaf [(1, 10), (2, 20), (3, 30), (4, 40)]⟩

/-- Witness for C8: inserting key 5 into the full 4-item root leaf
yields a height-2 tree whose interior root has two leaf children
holding all five items. -/
theorem C8_root_split_insert_witness :
    2 ≤ tC8.max_fanout ∧
    (∃ t' nk l r,
      treeInsert tC8 5 50 =
        some (t', bmGet [(1, 10), (2, 20), (3, 30), (4, 40)] 5) ∧
      t'.height = 2 ∧
      t'.root = BNode.int [(0, .leaf l), (nk, .leaf r)] ∧
      l ++ r = btmInsert [(1, 10), (2, 20), (3, 30), (4, 40)] 5 50) :=
  ⟨by decide,
   C8_root_split_insert tC8 [(1, 10), (2, 20), (3, 30), (4, 40)] 5 50
     rfl rfl rfl (by decide) (by decide)⟩

/-- Is the root an interior node with exactly one child? -/
def rootSingleChildInt : BNode → Bool
  | .int [_] => true
  | _ => false

/-- A height-2 tree (min_fanout 2, max_fanout 4) whose interior root has
two leaf children of minimum fanout. -/
def tC9 : BTree :=
  ⟨2, 2, 4, .int [(0, .leaf [(1, 10), (2, 20)]),
    (3, .leaf [(3, 30), (4, 40)])]⟩

/-- The tree `remove` produces from `tC9` for key 1: the two leaves were
merged during the descent, leaving the interior root with exactly one
child, and the remove returned without collapsing it (the height is
still 2). -/
def tC9' : BTree :=
  ⟨2, 2, 4, .int [(0, .leaf [(2, 20), (3, 30), (4, 40)])]⟩

/-- C9 is refuted on `tC9`: `remove(1)` merges the root's two children
during the descent and returns with the root an interior node with
exactly one child, at unchanged height — the collapse does not happen
"during that same remove". -/
theorem C9_remove_returns_single_child_root :
    treeRemove tC9 1 = some (tC9', some 10) ∧
    rootSingleChildInt tC9'.root = true ∧
    tC9'.height = tC9.height :=
  ⟨rfl, rfl, rfl⟩

/-- C9 (amended): the collapse of a single-child interior root happens
at the START of a `remove`, not at its end: whenever `remove(k)` runs on
a tree whose root is an interior node with exactly one child, it first
replaces the root by that child and decreases the height by 1, then
performs the removal descent from the child. -/
theorem C9_root_collapse_at_start (t : BTree) (ck : Nat) (c : BNode)
    (k : Nat) (root' : BNode) (old : Option Nat)
    (hroot : t.root = BNode.int [(ck, c)])
    (hrun : removeNoFix t.min_fanout t.max_fanout (2 * t.height + 2) c k =
      some (root', old)) :
    treeRemove t k =
      some ({ t with root := root', height := t.height - 1 }, old) := by
  simp only [treeRemove, hroot, hrun]

/-- Witness for the amended C9: removing key 2 from `tC9'` (whose root
is a single-child interior node) collapses the root first — the result
is the child leaf with key 2 removed, at height 1. -/
theorem C9_root_collapse_at_start_witness :
    tC9'.root = BNode.int [(0, BNode.leaf [(2, 20), (3, 30), (4, 40)])] ∧
    treeRemove tC9' 2 =
      some ({ tC9' with
              root := BNode.leaf [(3, 30), (4, 40)]
              height := tC9'.height - 1 }, some 20) :=
  ⟨rfl,
   C9_root_collapse_at_start tC9' 0 (BNode.leaf [(2, 20), (3, 30), (4, 40)])
     2 (BNode.leaf [(3, 30), (4, 40)]) (some 20) rfl rfl⟩

end BFFFS
